import Mathlib

/-!
Shallow embedding of the core of the clortho key-management library
(package clortho) and proofs about it.

Conventions used throughout:

* Go `error` values produced through `go.uber.org/multierr` are modelled as
  `List GoError`, where the empty list plays the role of a `nil` error and
  `multierr.Append` is list append.
* `time.Duration` and nanosecond timestamps are modelled as `Int`
  (Go's `int64` semantics; the values involved never overflow).
* Go's `float64` arithmetic on jitter factors is modelled with `Rat`;
  the `int64(...)` conversion applied to a float is truncation toward zero.
* Go maps `map[string]Key` are modelled as association lists with
  overwrite-on-insert semantics (`mapInsert`, `mapFind`, `mapErase`).
* Interface values (Loader, Parser, Expander, Thumbprinter results) are
  passed as explicit inputs to the functions that consume them.
-/

namespace Clortho

/-! ## Errors (multierr aggregates) -/

/-- Error kinds produced by the library, mirroring the error values in the
Go source (`ErrKeyNotFound`, `ErrNoTemplate`, `HTTPLoaderError`,
`UnsupportedLocationError`, thumbprint failures, loader and parse failures). -/
inductive GoError where
  | keyNotFound
  | noTemplate
  | httpStatus (location : String) (statusCode : Nat)
  | unsupportedLocation (location : String)
  | thumbprintErr (msg : String)
  | loadErr (msg : String)
  | parseFailure (msg : String)
  | validationErr (msg : String)
deriving DecidableEq, Repr

/-- A multierr aggregate: the empty list is Go's `nil` error, and
`multierr.Append` is `(· ++ ·)`. -/
abbrev Errs := List GoError

/-! ## Keys -/

/-- Result of `Key.Thumbprint(hash)` for the relevant configured hash:
either the raw hash bytes or an error message. -/
inductive ThumbResult where
  | ok (bytes : List Nat)
  | err (msg : String)
deriving DecidableEq, Repr

/-- The `Key` interface of key.go, restricted to the attributes the claims
touch.  `thumbprint` is the outcome of `k.Thumbprint(h)` under the
configured hash. -/
structure Key where
  keyID : String
  keyType : String
  keyUsage : String
  thumbprint : ThumbResult
deriving DecidableEq, Repr

/-! ## Go map model -/

/-- Lookup in a Go `map[string]α` modelled as an association list. -/
def mapFind {α : Type} (m : List (String × α)) (k : String) : Option α :=
  (m.find? (fun p => p.1 = k)).map Prod.snd

/-- Insert/overwrite in a Go map: `m[k] = v`. -/
def mapInsert {α : Type} : List (String × α) → String → α → List (String × α)
  | [], k, v => [(k, v)]
  | p :: rest, k, v => if p.1 = k then (k, v) :: rest else p :: mapInsert rest k v

/-- Deletion from a Go map: `delete(m, k)`. -/
def mapErase {α : Type} : List (String × α) → String → List (String × α)
  | [], _ => []
  | p :: rest, k => if p.1 = k then rest else p :: mapErase rest k

/-! ## ContentMeta -/

/-- `ContentMeta` from loader.go.  Timestamps (`expiry`, `lastModified`) are
nanoseconds with `0` for Go's zero `time.Time`; `ttl` is a `time.Duration`. -/
structure ContentMeta where
  format : String := ""
  ttl : Int := 0
  expiry : Int := 0
  lastModified : Int := 0
  tag : String := ""
deriving DecidableEq, Repr

/-! ## RefreshEvent -/

/-- `RefreshEvent` from refresher.go.  The Go field `New` is called
`fresh` here (`new` is reserved in Lean). -/
structure RefreshEvent where
  uri : String := ""
  err : Errs := []
  keys : List Key := []
  fresh : List Key := []
  deleted : List Key := []
deriving DecidableEq, Repr

/-! ## KeyRing (keyRing.go, the revision with Add/Remove) -/

/-- `keyRing.Add`: upsert each key with a non-empty KeyID, counting the
insertions (including overwrites). -/
def keyRingAdd (m : List (String × Key)) (ks : List Key) : List (String × Key) × Nat :=
  ks.foldl
    (fun acc k =>
      if k.keyID ≠ "" then (mapInsert acc.1 k.keyID k, acc.2 + 1) else acc)
    (m, 0)

/-- `keyRing.Remove`: delete each named KeyID, counting actual removals. -/
def keyRingRemove (m : List (String × Key)) (ids : List String) : List (String × Key) × Nat :=
  ids.foldl
    (fun acc kid =>
      if (mapFind acc.1 kid).isSome then (mapErase acc.1 kid, acc.2 + 1) else acc)
    (m, 0)

/-- Upsert loop of `keyRing.OnRefreshEvent`: reinsert every key of the
event that has a non-empty KeyID. -/
def upsertAll (m : List (String × Key)) (ks : List Key) : List (String × Key) :=
  ks.foldl (fun acc k => if k.keyID ≠ "" then mapInsert acc k.keyID k else acc) m

/-- Delete loop of `keyRing.OnRefreshEvent`: delete the KeyID of every
deleted key. -/
def eraseAll (m : List (String × Key)) (ks : List Key) : List (String × Key) :=
  ks.foldl (fun acc k => mapErase acc k.keyID) m

/-- `keyRing.OnRefreshEvent`: ignore events that carry an error or whose
`Keys` and `Deleted` are both empty; otherwise upsert all keys and then
delete all deleted KeyIDs (one exclusive lock acquisition in the source,
modelled as a single state transformation). -/
def onRefreshEvent (m : List (String × Key)) (e : RefreshEvent) : List (String × Key) :=
  if e.err ≠ [] ∨ (e.keys.length = 0 ∧ e.deleted.length = 0) then m
  else eraseAll (upsertAll m e.keys) e.deleted

/-! ## Resolver key selection (resolver.go `fetchKey`) -/

/-- Key-selection logic of `resolver.fetchKey`: zero keys is
`ErrKeyNotFound`; exactly one key is returned as-is; with two or more
keys, the first whose KeyID matches is returned, else `ErrKeyNotFound`. -/
def selectKey (keyID : String) : List Key → Except GoError Key
  | [] => .error .keyNotFound
  | [k] => .ok k
  | k1 :: k2 :: rest =>
    match (k1 :: k2 :: rest).find? (fun c => c.keyID = keyID) with
    | some k => .ok k
    | none => .error .keyNotFound

/-- `resolver.fetchKey`: expand the URI template, fetch, then select.
The expander outcome and the fetcher outcome are passed as values. -/
def fetchKey (keyID : String) (expandRes : String × Errs)
    (fetchRes : List Key × ContentMeta × Errs) : String × Option Key × Errs :=
  let (location, e1) := expandRes
  if e1 ≠ [] then (location, none, e1)
  else
    let (keys, _, e2) := fetchRes
    if e2 ≠ [] then (location, none, e2)
    else
      match selectKey keyID keys with
      | .ok k => (location, some k, [])
      | .error ge => (location, none, [ge])

/-! ## Base64url (no padding) and KeyID synthesis (fetcher.go, key.go) -/

/-- Alphabet of `base64.RawURLEncoding`. -/
def b64Chars : List Char :=
  "ABCDEFGHIJKLMNOPQRSTUVWXYZabcdefghijklmnopqrstuvwxyz0123456789-_".toList

/-- Character at a 6-bit index of the base64url alphabet. -/
def b64Char (n : Nat) : Char := b64Chars.getD n 'A'

/-- `base64.RawURLEncoding.EncodeToString` on a byte sequence, as characters:
standard base64 in the URL-safe alphabet, without padding. -/
def base64urlChars : List Nat → List Char
  | [] => []
  | [b1] => [b64Char (b1 / 4 % 64), b64Char (b1 % 4 * 16)]
  | [b1, b2] =>
      [b64Char (b1 / 4 % 64), b64Char (b1 % 4 * 16 + b2 / 16 % 16),
       b64Char (b2 % 16 * 4)]
  | b1 :: b2 :: b3 :: rest =>
      b64Char (b1 / 4 % 64) :: b64Char (b1 % 4 * 16 + b2 / 16 % 16) ::
      b64Char (b2 % 16 * 4 + b3 / 64 % 4) :: b64Char (b3 % 64) ::
      base64urlChars rest

/-- `base64.RawURLEncoding.EncodeToString` on a byte sequence. -/
def base64urlEncode (bs : List Nat) : String := String.mk (base64urlChars bs)

/-- `EnsureKeyID` from key.go: a key that already has a KeyID is returned
as-is; otherwise its RFC 7638 thumbprint is computed and base64url-encoded
into a fresh KeyID; on a thumbprint error the key is returned as-is together
with the error. -/
def ensureKeyID (k : Key) : Key × Errs :=
  if k.keyID ≠ "" then (k, [])
  else
    match k.thumbprint with
    | .ok bs => ({ k with keyID := base64urlEncode bs }, [])
    | .err m => (k, [.thumbprintErr m])

/-- `fetcher.Fetch` from fetcher.go: load, parse on load success, then run
every parsed key through `EnsureKeyID`, replacing it in the sequence and
aggregating any thumbprint errors onto the error being returned.  The
loader outcome is passed as a value and the installed Parse function as a
function of format and data. -/
def fetcherFetch (loaded : List Nat × ContentMeta × Errs)
    (parseFn : String → List Nat → List Key × Errs) :
    List Key × ContentMeta × Errs :=
  let (data, next, e1) := loaded
  let (keys, e2) := if e1 = [] then parseFn next.format data else ([], e1)
  (keys.map (fun k => (ensureKeyID k).1),
   next,
   keys.foldl (fun es k => es ++ (ensureKeyID k).2) e2)

/-! ## Refresh task (refresher.go) -/

/-- State a refresh task's poll loop carries across iterations. -/
structure TaskState where
  prevKeys : List Key := []
  prevKeyMap : List (String × Key) := []
  prevMeta : ContentMeta := {}
deriving DecidableEq, Repr

/-- `refreshTask.newKeyMap`: index keys by KeyID, synthesizing a thumbprint
KeyID for keys without one and dropping (with an aggregated error) keys
whose thumbprint fails. -/
def newKeyMap (keys : List Key) : List (String × Key) × Errs :=
  keys.foldl
    (fun acc k =>
      if k.keyID ≠ "" then (mapInsert acc.1 k.keyID k, acc.2)
      else
        match k.thumbprint with
        | .ok bs => (mapInsert acc.1 (base64urlEncode bs) k, acc.2)
        | .err m => (acc.1, acc.2 ++ [.thumbprintErr m]))
    ([], [])

/-- `refreshTask.findChanges`: keys present in `next` but not `prev` are
new; keys present in `prev` but not `next` are deleted. -/
def findChanges (next prev : List (String × Key)) : List Key × List Key :=
  ((next.filter (fun p => (mapFind prev p.1).isNone)).map Prod.snd,
   (prev.filter (fun p => (mapFind next p.1).isNone)).map Prod.snd)

/-- One iteration of `refreshTask.run`: fetch outcome in, event and updated
state out; `none` models the `return` taken when the task context was
cancelled.  On success the event carries a copy of the fetched keys and the
changes against the previous key map, and the state rotates; on error the
event carries the previous keys with empty change sets, and `prevMeta` is
reset to the zero ContentMeta. -/
def runIteration (uri : String) (s : TaskState)
    (fetchRes : List Key × ContentMeta × Errs) (ctxCancelled : Bool) :
    Option (RefreshEvent × TaskState) :=
  let (nextKeys, nextMeta, err) := fetchRes
  if ctxCancelled then none
  else if err = [] then
    let nextKeyMap := (newKeyMap nextKeys).1
    some ({ uri := uri, err := err, keys := nextKeys,
            fresh := (findChanges nextKeyMap s.prevKeyMap).1,
            deleted := (findChanges nextKeyMap s.prevKeyMap).2 },
          { prevKeys := nextKeys, prevKeyMap := nextKeyMap, prevMeta := nextMeta })
  else
    some ({ uri := uri, err := err, keys := s.prevKeys, fresh := [], deleted := [] },
          { prevKeys := s.prevKeys, prevKeyMap := s.prevKeyMap, prevMeta := {} })

/-! ## Jitter computation (jitterer.go, refresher.go, config.go) -/

/-- Go's `int64(x)` conversion of a float: truncation toward zero. -/
def goTrunc (q : ℚ) : ℤ := if 0 ≤ q then ⌊q⌋ else ⌈q⌉

/-- `DefaultRefreshInterval` (24h), in nanoseconds. -/
def DefaultRefreshInterval : Int := 24 * 60 * 60 * 1000000000

/-- `DefaultRefreshMinInterval` (10m), in nanoseconds. -/
def DefaultRefreshMinInterval : Int := 10 * 60 * 1000000000

/-- `DefaultRefreshJitter` (0.1). -/
def DefaultRefreshJitter : ℚ := 1 / 10

/-- `RefreshSource` from config.go: durations as nanoseconds, jitter as a
rational. -/
structure RefreshSource where
  uri : String := ""
  interval : Int := 0
  minInterval : Int := 0
  jitter : ℚ := 0
deriving DecidableEq, Repr

/-- `RefreshSource.validateAndSetDefaults` from config.go: returns a copy
with defaults substituted for unset fields, together with the aggregated
validation errors. -/
def validateSource (rs : RefreshSource) : RefreshSource × Errs :=
  let e0 : Errs :=
    if rs.uri = "" then [.validationErr "A URI is required for each refresh source"] else []
  let jitter := if rs.jitter = 0 then DefaultRefreshJitter else rs.jitter
  let e1 : Errs :=
    if rs.jitter = 0 then []
    else if rs.jitter < 0 ∨ 1 ≤ rs.jitter then [.validationErr "Invalid refresh jitter"]
    else []
  let interval := if rs.interval = 0 then DefaultRefreshInterval else rs.interval
  let e2 : Errs :=
    if rs.interval = 0 then []
    else if rs.interval < 0 then [.validationErr "Invalid refresh interval"] else []
  let minInterval := if rs.minInterval = 0 then DefaultRefreshMinInterval else rs.minInterval
  let e3 : Errs :=
    if rs.minInterval = 0 then []
    else if rs.minInterval < 0 then [.validationErr "Invalid minimum refresh interval"]
    else []
  let e4 : Errs :=
    if minInterval > interval then [.validationErr "MinInterval cannot be larger than Interval"]
    else []
  (⟨rs.uri, interval, minInterval, jitter⟩, e0 ++ e1 ++ e2 ++ e3 ++ e4)

/-- The `jitterer` struct of jitterer.go, after `newJitterer` precomputes
its fields. -/
structure Jitterer where
  intervalBase : Int
  intervalRange : Int
  minInterval : Int
  jitter : ℚ
  ttlBaseMultiplier : ℚ
deriving DecidableEq, Repr

/-- `newJitterer` from jitterer.go: substitute defaults for out-of-range
configuration and precompute the jitter window. -/
def newJitterer (source : RefreshSource) : Jitterer :=
  let minInterval :=
    if source.minInterval ≤ 0 then DefaultRefreshMinInterval else source.minInterval
  let jitter :=
    if source.jitter ≤ 0 ∨ 1 ≤ source.jitter then DefaultRefreshJitter else source.jitter
  let interval := if source.interval ≤ 0 then DefaultRefreshInterval else source.interval
  { intervalBase := goTrunc ((1 - jitter) * interval),
    intervalRange :=
      goTrunc ((1 + jitter) * interval) - goTrunc ((1 - jitter) * interval) + 1,
    minInterval := minInterval,
    jitter := jitter,
    ttlBaseMultiplier := 1 - 2 * jitter }

/-- `jitterer.nextInterval` from jitterer.go.  The value `r` stands for the
result of `rand.Int63n` on the relevant range (its bounds become theorem
hypotheses). -/
def jitterNextInterval (j : Jitterer) (meta : ContentMeta) (fetchErr : Errs)
    (r : Int) : Int :=
  let next :=
    if fetchErr ≠ [] ∨ meta.ttl ≤ 0 then j.intervalBase + r
    else goTrunc (j.ttlBaseMultiplier * (meta.ttl : ℚ)) + r
  if next < j.minInterval then j.minInterval else next

/-- Argument passed to `rand.Int63n` in the TTL branch of
`refreshTask.computeNextRefresh` (refresher.go): `int64(meta.TTL) - base + 1`
with `base = int64(2.0 * (1.0 - jitter) * float64(meta.TTL))`. -/
def computeNextRefreshArg (jitter : ℚ) (ttl : Int) : Int :=
  ttl - goTrunc (2 * (1 - jitter) * (ttl : ℚ)) + 1

/-- `refreshTask.computeNextRefresh` from refresher.go, with the panic of
`rand.Int63n` on a non-positive argument made explicit as an error.  In the
TTL branch the Go code takes `rand.Int63n(int64(meta.TTL) - base + 1)`
without adding the base back, so the sample itself is returned. -/
def computeNextRefresh (source : RefreshSource) (meta : ContentMeta)
    (fetchErr : Errs) (r : Int) : Except String Int :=
  if fetchErr ≠ [] ∨ meta.ttl ≤ 0 then
    let base := goTrunc ((1 - source.jitter) * (source.interval : ℚ))
    let range := goTrunc ((1 + source.jitter) * (source.interval : ℚ)) - base + 1
    if range ≤ 0 then .error "rand.Int63n: invalid argument"
    else .ok (if base + r < source.minInterval then source.minInterval else base + r)
  else if computeNextRefreshArg source.jitter meta.ttl ≤ 0 then
    .error "rand.Int63n: invalid argument"
  else .ok (if r < source.minInterval then source.minInterval else r)

/-! ## HTTP loader (loader.go) -/

/-- `DefaultHTTPFormat`: format assumed when a response has no Content-Type. -/
def DefaultHTTPFormat : String := "application/json"

/-- An HTTP response as far as `HTTPLoader` inspects it. -/
structure HTTPResponse where
  statusCode : Nat
  headers : List (String × String)
  body : List Nat
  requestURL : String
deriving DecidableEq, Repr

/-- `response.Header.Get`: first matching header value, or empty string. -/
def headerGet (hs : List (String × String)) (k : String) : String :=
  ((hs.find? (fun p => p.1 = k)).map Prod.snd).getD ""

/-- `HTTPLoader.transact`: 304 yields an empty body and no error; 200 yields
the full body; any other status is an `HTTPLoaderError`. -/
def transact (resp : HTTPResponse) : List Nat × Errs :=
  if resp.statusCode = 304 then ([], [])
  else if resp.statusCode = 200 then (resp.body, [])
  else ([], [.httpStatus resp.requestURL resp.statusCode])

/-- The Cache-Control scan inside `HTTPLoader.newMeta`: first `max-age`
directive wins and breaks the loop even when its value is invalid. -/
def findMaxAge : List String → Option Int
  | [] => none
  | d :: rest =>
    let nv := d.splitOn "="
    if (nv.headD "").trim = "max-age" ∧ nv.length > 1 then (nv.getD 1 "").toInt?
    else findMaxAge rest

/-- `HTTPLoader.newMeta`: derive a ContentMeta from response headers.
`parseTime` stands for `time.Parse(time.RFC1123, ...)`, returning `none`
on an invalid timestamp (which the code treats as a missing header). -/
def newMeta (parseTime : String → Option Int) (resp : HTTPResponse) : ContentMeta :=
  let format0 := headerGet resp.headers "Content-Type"
  let lm := headerGet resp.headers "Last-Modified"
  let cc := headerGet resp.headers "Cache-Control"
  let expiresStr := headerGet resp.headers "Expires"
  { format := if format0 = "" then DefaultHTTPFormat else format0,
    tag := headerGet resp.headers "ETag",
    lastModified := if lm ≠ "" then (parseTime lm).getD 0 else 0,
    ttl :=
      if cc ≠ "" then
        match findMaxAge (cc.splitOn ",") with
        | some secs => secs * 1000000000
        | none => 0
      else 0,
    expiry := if cc = "" ∧ expiresStr ≠ "" then (parseTime expiresStr).getD 0 else 0 }

/-- `HTTPLoader.LoadContent` on an already-received response: on a transact
error the input meta is returned with the error; otherwise the body together
with `newMeta(response)`. -/
def loadContentHTTP (parseTime : String → Option Int) (resp : HTTPResponse)
    (meta : ContentMeta) : List Nat × ContentMeta × Errs :=
  let (data, errs) := transact resp
  if errs ≠ [] then ([], meta, errs)
  else (data, newMeta parseTime resp, [])

/-! ## Refresh listener registry with its event cache (refresher.go) -/

/-- State of `refreshListeners`: registered listeners (as opaque ids, in
insertion order) and the cache of the most recent event per source URI. -/
structure RefreshListenersState where
  listeners : List Nat := []
  cache : List (String × RefreshEvent) := []
deriving DecidableEq, Repr

/-- `refreshListeners.addListener`: append the listener and synchronously
dispatch every cached event to it; the second component lists the
deliveries (listener, event) performed by the call. -/
def rlAddListener (s : RefreshListenersState) (l : Nat) :
    RefreshListenersState × List (Nat × RefreshEvent) :=
  ({ listeners := s.listeners ++ [l], cache := s.cache },
   s.cache.map (fun p => (l, p.2)))

/-- `refreshListeners.dispatch`: cache the event under its URI and deliver
it to every registered listener in insertion order. -/
def rlDispatch (s : RefreshListenersState) (e : RefreshEvent) :
    RefreshListenersState × List (Nat × RefreshEvent) :=
  ({ listeners := s.listeners, cache := mapInsert s.cache e.uri e },
   s.listeners.map (fun t => (t, e)))

/-- An operation on the listener registry. -/
inductive RLOp where
  | add (l : Nat)
  | dispatchEvent (e : RefreshEvent)
deriving DecidableEq, Repr

/-- Apply one registry operation. -/
def rlStep (s : RefreshListenersState) (op : RLOp) :
    RefreshListenersState × List (Nat × RefreshEvent) :=
  match op with
  | .add l => rlAddListener s l
  | .dispatchEvent e => rlDispatch s e

/-- Registry state after a sequence of operations from the zero value. -/
def rlState (ops : List RLOp) : RefreshListenersState :=
  ops.foldl (fun s op => (rlStep s op).1) {}

/-- Listeners added by a sequence of operations, in order. -/
def listenersOf (ops : List RLOp) : List Nat :=
  ops.filterMap (fun op => match op with | .add l => some l | _ => none)

/-- The most recent event dispatched for a URI by a sequence of operations. -/
def lastEventFor (ops : List RLOp) (uri : String) : Option RefreshEvent :=
  (ops.reverse.filterMap
    (fun op =>
      match op with
      | .dispatchEvent e => if e.uri = uri then some e else none
      | _ => none)).head?

/-! ## Resolver request coalescing (resolver.go `Resolve`)

All calls are for one fixed keyID K, so the pending table restricted to K is
an `Option`: `pendingResolverRequests.requestFor` creates the entry when
absent (the caller becomes the owner) and returns the existing request
otherwise (the caller waits).  Each caller is a thread driven through the
atomic actions of `Resolve`; the resolve lock makes the requestFor section
and the cleanup section atomic, the fetch and the KeyRing add happen outside
the lock. -/

/-- Program counter of one `Resolve` caller for keyID K.  `rid` identifies
the pending request (the done channel) the thread created or waits on. -/
inductive TStat where
  | idle
  | ownerFetching (rid : Nat)
  | ownerFetched (rid : Nat)
  | ownerAdded (rid : Nat)
  | ownerDone (rid : Nat)
  | waiting (rid : Nat)
  | waiterDone (rid : Nat)
  | cacheHit
deriving DecidableEq, Repr

/-- Shared state of the resolver plus the program counters of the callers.
`pending` is the pending-request table restricted to K; `closed` the set of
closed done channels; `ringHasKey` whether the KeyRing contains K. -/
structure RConfig where
  threads : List TStat
  pending : Option Nat
  nextRid : Nat
  closed : List Nat
  ringHasKey : Bool
  fetchCount : Nat
deriving DecidableEq, Repr

/-- Atomic actions of `resolver.Resolve`: `enter` is the lock-protected
double-check plus `pending.requestFor`; `fetch` the Fetcher call;
`addRing` the owner's `keyRing.Add` and `request.value.Store`; `cleanup`
the lock-protected `pending.cleanup` (delete entry, close done); `observe`
a waiter receiving from the closed done channel. -/
inductive RAct where
  | enter (t : Nat)
  | fetch (t : Nat)
  | addRing (t : Nat)
  | cleanup (t : Nat)
  | observe (t : Nat)
deriving DecidableEq, Repr

/-- Status of thread `t`. -/
def getStat (c : RConfig) (t : Nat) : TStat := c.threads.getD t .idle

/-- Replace the status of thread `t`. -/
def setStat (c : RConfig) (t : Nat) (st : TStat) : RConfig :=
  { c with threads := c.threads.set t st }

/-- One atomic step of the coalescing protocol; `none` when the action is
not enabled (the thread is not at that point of `Resolve`). -/
def rexec (c : RConfig) : RAct → Option RConfig
  | .enter t =>
    if t < c.threads.length ∧ getStat c t = .idle then
      if c.ringHasKey then some (setStat c t .cacheHit)
      else
        match c.pending with
        | some rid => some (setStat c t (.waiting rid))
        | none =>
          some { setStat c t (.ownerFetching c.nextRid) with
                 pending := some c.nextRid, nextRid := c.nextRid + 1 }
    else none
  | .fetch t =>
    match getStat c t with
    | .ownerFetching rid =>
      some { setStat c t (.ownerFetched rid) with fetchCount := c.fetchCount + 1 }
    | _ => none
  | .addRing t =>
    match getStat c t with
    | .ownerFetched rid => some { setStat c t (.ownerAdded rid) with ringHasKey := true }
    | _ => none
  | .cleanup t =>
    match getStat c t with
    | .ownerFetched rid =>
      some { setStat c t (.ownerDone rid) with pending := none, closed := rid :: c.closed }
    | .ownerAdded rid =>
      some { setStat c t (.ownerDone rid) with pending := none, closed := rid :: c.closed }
    | _ => none
  | .observe t =>
    match getStat c t with
    | .waiting rid =>
      if rid ∈ c.closed then some (setStat c t (.waiterDone rid)) else none
    | _ => none

/-- Run a trace of atomic actions. -/
def runTrace : RConfig → List RAct → Option RConfig
  | c, [] => some c
  | c, a :: rest =>
    match rexec c a with
    | some c2 => runTrace c2 rest
    | none => none

/-- Initial configuration: `n` callers, cold KeyRing, empty pending table. -/
def initConfig (n : Nat) : RConfig :=
  ⟨List.replicate n .idle, none, 0, [], false, 0⟩

/-- Is the action an `enter`? -/
def isEnter : RAct → Bool
  | .enter _ => true
  | _ => false

/-- Does the action complete (part of) the owner's publication: `addRing`
or `cleanup`? -/
def isCompletionAct : RAct → Bool
  | .addRing _ => true
  | .cleanup _ => true
  | _ => false

/-- Is the action a Fetcher invocation? -/
def isFetchAct : RAct → Bool
  | .fetch _ => true
  | _ => false

/-- The thread of an enter action. -/
def enterThread : RAct → Option Nat
  | .enter t => some t
  | _ => none

/-- Number of Fetcher invocations in a trace. -/
def countFetches (tr : List RAct) : Nat := (tr.filter isFetchAct).length

/-- The trace property defining a *concurrent* batch of `Resolve` calls:
every caller enters (performs its `requestFor`) before any caller completes
(publishes to the ring or cleans up the pending entry). -/
def entersBeforeCompletions : List RAct → Bool
  | [] => true
  | a :: rest =>
    (if isCompletionAct a then rest.all (fun b => !(isEnter b)) else true)
      && entersBeforeCompletions rest

/-- Request id associated with an owner status. -/
def ownerRid : TStat → Option Nat
  | .ownerFetching r => some r
  | .ownerFetched r => some r
  | .ownerAdded r => some r
  | .ownerDone r => some r
  | _ => none

/-- Invariant of restricted traces before any completion: at most one
thread has installed the pending request and become the owner; everyone
else who entered is waiting on that same request. -/
def resolverPhase1 (tr : List RAct) (c : RConfig) (n : Nat) : Prop :=
  c.threads.length = n
  ∧ c.ringHasKey = false
  ∧ c.closed = []
  ∧ ((c.pending = none ∧ c.nextRid = 0 ∧ c.fetchCount = 0
        ∧ (∀ t, getStat c t = .idle) ∧ tr.filterMap enterThread = [])
     ∨ (∃ t0, t0 < n ∧ c.pending = some 0 ∧ c.nextRid = 1
        ∧ (tr.filterMap enterThread).head? = some t0
        ∧ ((getStat c t0 = .ownerFetching 0 ∧ c.fetchCount = 0)
            ∨ (getStat c t0 = .ownerFetched 0 ∧ c.fetchCount = 1))
        ∧ (∀ t, t ≠ t0 → getStat c t = .idle ∨ getStat c t = .waiting 0)))

/-- Invariant of restricted traces after the first completion: the Fetcher
has run exactly once, by the unique owner, and every other caller is idle,
waiting on the owner's request, or released by its closed done channel. -/
def resolverPhase2 (tr : List RAct) (c : RConfig) (n : Nat) : Prop :=
  c.threads.length = n
  ∧ (∃ t0, t0 < n ∧ c.nextRid = 1 ∧ c.fetchCount = 1
      ∧ (tr.filterMap enterThread).head? = some t0
      ∧ ((getStat c t0 = .ownerFetched 0 ∧ c.pending = some 0 ∧ c.closed = [])
         ∨ (getStat c t0 = .ownerAdded 0 ∧ c.pending = some 0 ∧ c.closed = [])
         ∨ (getStat c t0 = .ownerDone 0 ∧ c.pending = none ∧ c.closed = [0]))
      ∧ (∀ t, t ≠ t0 → getStat c t = .idle ∨ getStat c t = .waiting 0
          ∨ getStat c t = .waiterDone 0))

/-- Combined invariant of restricted traces. -/
def resolverInv (tr : List RAct) (c : RConfig) (n : Nat) : Prop :=
  if tr.any isCompletionAct then resolverPhase2 tr c n else resolverPhase1 tr c n

/-! ## Sample values used to witness the theorems on concrete inputs -/

/-- Sample key with KeyID "a". -/
def keyA : Key := ⟨"a", "RSA", "sig", .ok [1, 2, 3]⟩

/-- Sample key with KeyID "b". -/
def keyB : Key := ⟨"b", "EC", "", .ok [4, 5, 6]⟩

/-- Sample key with KeyID "c". -/
def keyC : Key := ⟨"c", "RSA", "", .ok [7, 8, 9]⟩

/-- Sample key with KeyID "d". -/
def keyD : Key := ⟨"d", "OKP", "", .ok [10, 11, 12]⟩

/-- Sample key with no KeyID whose thumbprint fails. -/
def badKey : Key := ⟨"", "RSA", "", .err "thumbprint failure"⟩

/-- Sample key with no KeyID and a good thumbprint. -/
def keyNoID : Key := ⟨"", "EC", "", .ok [250, 251, 252]⟩

/-- Sample key with KeyID "testKey". -/
def keyT : Key := ⟨"testKey", "RSA", "sig", .ok [13, 14]⟩

/-- Sample refresh event for the listener-registry theorems. -/
def ev1 : RefreshEvent := { uri := "http://getkeys.com/keys", keys := [keyA] }

/-- A second sample refresh event. -/
def ev2 : RefreshEvent := { uri := "http://getkeys.com/keys", keys := [keyA, keyB], fresh := [keyB] }

end Clortho

namespace Clortho

/-! ## Theorems: KeyRing refresh-event sink (C9) and resolver selection (C3) -/

theorem mapFind_cons {α : Type} (p : String × α) (rest : List (String × α)) (k : String) :
    mapFind (p :: rest) k = if p.1 = k then some p.2 else mapFind rest k := by
  by_cases h : p.1 = k <;> simp [mapFind, List.find?, h]

theorem mapFind_insert {α : Type} (m : List (String × α)) (k k' : String) (v : α) :
    mapFind (mapInsert m k v) k' = if k' = k then some v else mapFind m k' := by
  induction m with
  | nil =>
    simp only [mapInsert, mapFind_cons]
    by_cases h : k' = k
    · rw [if_pos (h ▸ rfl), if_pos h]
    · rw [if_neg (fun hc : k = k' => h hc.symm), if_neg h]
  | cons p rest ih =>
    by_cases hp : p.1 = k
    · simp only [mapInsert, if_pos hp, mapFind_cons]
      by_cases h : k' = k
      · rw [if_pos (h ▸ rfl), if_pos h]
      · rw [if_neg (fun hc : k = k' => h hc.symm), if_neg h,
          if_neg (show ¬ p.1 = k' from fun hc => h (hp ▸ hc ▸ rfl))]
    · simp only [mapInsert, if_neg hp, mapFind_cons]
      by_cases h : p.1 = k'
      · rw [if_pos h, if_pos h, if_neg (show ¬ k' = k from fun hc => hp (hc ▸ h))]
      · rw [if_neg h, if_neg h, ih]

theorem mapFind_erase {α : Type} (m : List (String × α)) (k k' : String)
    (hnd : (m.map Prod.fst).Nodup) :
    mapFind (mapErase m k) k' = if k' = k then none else mapFind m k' := by
  induction m with
  | nil =>
    by_cases h : k' = k <;> simp [mapErase, mapFind, List.find?, h]
  | cons p rest ih =>
    simp only [List.map_cons, List.nodup_cons] at hnd
    by_cases hp : p.1 = k
    · simp only [mapErase, if_pos hp]
      by_cases h : k' = k
      · subst h
        have hnone : List.find? (fun q => decide (q.1 = k')) rest = none := by
          refine List.find?_eq_none.2 ?_
          intro q hq
          simp only [decide_eq_true_eq]
          intro hqk
          exact hnd.1 (hp ▸ hqk ▸ List.mem_map_of_mem Prod.fst hq)
        simp [mapFind, hnone]
      · have hpk : ¬ p.1 = k' := fun hc => h (hp ▸ hc ▸ rfl)
        rw [if_neg h, mapFind_cons, if_neg hpk]
    · simp only [mapErase, if_neg hp, mapFind_cons]
      by_cases h : p.1 = k'
      · have hkk : ¬ k' = k := fun hc => hp (hc ▸ h)
        rw [if_pos h, if_neg hkk, if_pos h]
      · rw [if_neg h, ih hnd.2]
        by_cases hk : k' = k
        · rw [if_pos hk, if_pos hk]
        · rw [if_neg hk, if_neg hk, if_neg h]

theorem mem_fst_mapInsert {α : Type} (m : List (String × α)) (k s : String) (v : α) :
    s ∈ (mapInsert m k v).map Prod.fst ↔ s = k ∨ s ∈ m.map Prod.fst := by
  induction m with
  | nil => simp [mapInsert]
  | cons p rest ih =>
    by_cases hp : p.1 = k
    · subst hp
      rw [show mapInsert (p :: rest) p.1 v = (p.1, v) :: rest from by
        simp [mapInsert]]
      simp only [List.map_cons, List.mem_cons]
      tauto
    · simp only [mapInsert, if_neg hp, List.map_cons, List.mem_cons, ih]
      tauto

theorem nodup_mapInsert {α : Type} (m : List (String × α)) (k : String) (v : α)
    (hnd : (m.map Prod.fst).Nodup) :
    ((mapInsert m k v).map Prod.fst).Nodup := by
  induction m with
  | nil => simp [mapInsert]
  | cons p rest ih =>
    simp only [List.map_cons, List.nodup_cons] at hnd
    by_cases hp : p.1 = k
    · simp only [mapInsert, if_pos hp, List.map_cons, List.nodup_cons]
      exact ⟨hp ▸ hnd.1, hnd.2⟩
    · simp only [mapInsert, if_neg hp, List.map_cons, List.nodup_cons]
      refine ⟨?_, ih hnd.2⟩
      rw [mem_fst_mapInsert]
      rintro (h | h)
      · exact hp h
      · exact hnd.1 h

theorem mem_of_mem_mapErase {α : Type} {m : List (String × α)} {k : String}
    {q : String × α} (hq : q ∈ mapErase m k) : q ∈ m := by
  induction m with
  | nil => simp [mapErase] at hq
  | cons p rest ih =>
    by_cases hp : p.1 = k
    · simp only [mapErase, if_pos hp] at hq
      exact List.mem_cons_of_mem _ hq
    · simp only [mapErase, if_neg hp, List.mem_cons] at hq
      rcases hq with hq | hq
      · exact hq ▸ List.mem_cons_self _ _
      · exact List.mem_cons_of_mem _ (ih hq)

theorem nodup_mapErase {α : Type} (m : List (String × α)) (k : String)
    (hnd : (m.map Prod.fst).Nodup) :
    ((mapErase m k).map Prod.fst).Nodup := by
  induction m with
  | nil => simp [mapErase]
  | cons p rest ih =>
    simp only [List.map_cons, List.nodup_cons] at hnd
    by_cases hp : p.1 = k
    · simpa [mapErase, hp] using hnd.2
    · simp only [mapErase, if_neg hp, List.map_cons, List.nodup_cons]
      refine ⟨?_, ih hnd.2⟩
      intro hmem
      rcases List.mem_map.1 hmem with ⟨q, hq, hq1⟩
      exact hnd.1 (hq1 ▸ List.mem_map_of_mem Prod.fst (mem_of_mem_mapErase hq))

theorem nodup_upsertAll (m : List (String × Key)) (ks : List Key)
    (hnd : (m.map Prod.fst).Nodup) :
    ((upsertAll m ks).map Prod.fst).Nodup := by
  induction ks generalizing m with
  | nil => simpa [upsertAll] using hnd
  | cons k rest ih =>
    by_cases hk : k.keyID = ""
    · rw [show upsertAll m (k :: rest) = upsertAll m rest from by simp [upsertAll, hk]]
      exact ih m hnd
    · rw [show upsertAll m (k :: rest) = upsertAll (mapInsert m k.keyID k) rest from by
        simp [upsertAll, hk]]
      exact ih _ (nodup_mapInsert _ _ _ hnd)

theorem mapFind_upsertAll_notMem (m : List (String × Key)) (ks : List Key)
    (kid : String) (hnm : kid ∉ ks.map Key.keyID) :
    mapFind (upsertAll m ks) kid = mapFind m kid := by
  induction ks generalizing m with
  | nil => simp [upsertAll]
  | cons k rest ih =>
    simp only [List.map_cons, List.mem_cons, not_or] at hnm
    by_cases hk : k.keyID = ""
    · rw [show upsertAll m (k :: rest) = upsertAll m rest from by simp [upsertAll, hk]]
      exact ih _ hnm.2
    · rw [show upsertAll m (k :: rest) = upsertAll (mapInsert m k.keyID k) rest from by
        simp [upsertAll, hk]]
      rw [ih _ hnm.2, mapFind_insert, if_neg hnm.1]

theorem mapFind_upsertAll_mem (m : List (String × Key)) (ks : List Key) (k : Key)
    (hnd : (ks.map Key.keyID).Nodup) (hk : k ∈ ks) (hne : k.keyID ≠ "") :
    mapFind (upsertAll m ks) k.keyID = some k := by
  induction ks generalizing m with
  | nil => exact absurd hk (List.not_mem_nil k)
  | cons k0 rest ih =>
    simp only [List.map_cons, List.nodup_cons] at hnd
    rcases List.mem_cons.1 hk with hk | hk
    · subst hk
      rw [show upsertAll m (k :: rest) = upsertAll (mapInsert m k.keyID k) rest from by
        simp [upsertAll, hne]]
      rw [mapFind_upsertAll_notMem _ _ _ hnd.1, mapFind_insert, if_pos rfl]
    · by_cases hk0 : k0.keyID = ""
      · rw [show upsertAll m (k0 :: rest) = upsertAll m rest from by simp [upsertAll, hk0]]
        exact ih m hnd.2 hk
      · rw [show upsertAll m (k0 :: rest) = upsertAll (mapInsert m k0.keyID k0) rest from by
          simp [upsertAll, hk0]]
        exact ih _ hnd.2 hk

theorem mapFind_eraseAll (m : List (String × Key)) (ks : List Key) (kid : String)
    (hnd : (m.map Prod.fst).Nodup) :
    mapFind (eraseAll m ks) kid =
      if kid ∈ ks.map Key.keyID then none else mapFind m kid := by
  induction ks generalizing m with
  | nil => simp [eraseAll]
  | cons k rest ih =>
    rw [show eraseAll m (k :: rest) = eraseAll (mapErase m k.keyID) rest from by
      simp [eraseAll]]
    rw [ih _ (nodup_mapErase _ _ hnd), mapFind_erase _ _ _ hnd]
    by_cases h1 : kid ∈ rest.map Key.keyID
    · simp [h1]
    · by_cases h2 : kid = k.keyID <;> simp [h1, h2]

end Clortho

namespace Clortho

/-- C9: for every RefreshEvent delivered to `keyRing.OnRefreshEvent`: if the
event's error is non-nil, or both its `Keys` and `Deleted` fields are empty,
the ring's mapping is unchanged; otherwise every key of `event.Keys` with a
non-empty KeyID is upserted and every KeyID of `event.Deleted` is removed,
in one atomic state transformation. -/
theorem keyRing_onRefreshEvent_spec (m : List (String × Key)) (e : RefreshEvent)
    (hm : (m.map Prod.fst).Nodup) (hnd : (e.keys.map Key.keyID).Nodup) :
    ((e.err ≠ [] ∨ (e.keys = [] ∧ e.deleted = [])) → onRefreshEvent m e = m)
    ∧ (e.err = [] →
        (∀ k ∈ e.deleted, mapFind (onRefreshEvent m e) k.keyID = none)
        ∧ (∀ k ∈ e.keys, k.keyID ≠ "" → k.keyID ∉ e.deleted.map Key.keyID →
            mapFind (onRefreshEvent m e) k.keyID = some k)
        ∧ (∀ kid, kid ∉ e.keys.map Key.keyID → kid ∉ e.deleted.map Key.keyID →
            mapFind (onRefreshEvent m e) kid = mapFind m kid)) := by
  constructor
  · rintro (h | h)
    · simp [onRefreshEvent, h]
    · simp [onRefreshEvent, h.1, h.2]
  · intro herr
    by_cases hempty : e.keys.length = 0 ∧ e.deleted.length = 0
    · have hk : e.keys = [] := List.length_eq_zero.1 hempty.1
      have hd : e.deleted = [] := List.length_eq_zero.1 hempty.2
      refine ⟨?_, ?_, ?_⟩
      · intro k hmem; rw [hd] at hmem; exact absurd hmem (List.not_mem_nil k)
      · intro k hmem; rw [hk] at hmem; exact absurd hmem (List.not_mem_nil k)
      · intro kid _ _
        have hc : e.err ≠ [] ∨ (e.keys.length = 0 ∧ e.deleted.length = 0) :=
          Or.inr ⟨by simp [hk], by simp [hd]⟩
        rw [show onRefreshEvent m e = m from by rw [onRefreshEvent, if_pos hc]]
    · have hcond : ¬ (e.err ≠ [] ∨ (e.keys.length = 0 ∧ e.deleted.length = 0)) := by
        simp only [not_or]
        exact ⟨by simp [herr], hempty⟩
      have hrun : onRefreshEvent m e = eraseAll (upsertAll m e.keys) e.deleted := by
        rw [onRefreshEvent, if_neg hcond]
      have hun : ((upsertAll m e.keys).map Prod.fst).Nodup := nodup_upsertAll _ _ hm
      refine ⟨?_, ?_, ?_⟩
      · intro k hmem
        rw [hrun, mapFind_eraseAll _ _ _ hun,
          if_pos (List.mem_map_of_mem Key.keyID hmem)]
      · intro k hmem hne hnd2
        rw [hrun, mapFind_eraseAll _ _ _ hun, if_neg hnd2,
          mapFind_upsertAll_mem _ _ _ hnd hmem hne]
      · intro kid hnk hndel
        rw [hrun, mapFind_eraseAll _ _ _ hun, if_neg hndel,
          mapFind_upsertAll_notMem _ _ _ hnk]

/-- Witness for C9 at a concrete ring and event: ring {a ↦ keyA}, event
upserting keyB and keyC and deleting keyA. -/
theorem keyRing_onRefreshEvent_spec_witness :
    (((RefreshEvent.mk "u" [] [keyB, keyC] [] [keyA]).err ≠ [] ∨
        ((RefreshEvent.mk "u" [] [keyB, keyC] [] [keyA]).keys = [] ∧
         (RefreshEvent.mk "u" [] [keyB, keyC] [] [keyA]).deleted = [])) →
      onRefreshEvent [("a", keyA)] (RefreshEvent.mk "u" [] [keyB, keyC] [] [keyA]) =
        [("a", keyA)])
    ∧ ((RefreshEvent.mk "u" [] [keyB, keyC] [] [keyA]).err = [] →
        (∀ k ∈ (RefreshEvent.mk "u" [] [keyB, keyC] [] [keyA]).deleted,
          mapFind (onRefreshEvent [("a", keyA)]
            (RefreshEvent.mk "u" [] [keyB, keyC] [] [keyA])) k.keyID = none)
        ∧ (∀ k ∈ (RefreshEvent.mk "u" [] [keyB, keyC] [] [keyA]).keys,
            k.keyID ≠ "" →
            k.keyID ∉ (RefreshEvent.mk "u" [] [keyB, keyC] [] [keyA]).deleted.map Key.keyID →
            mapFind (onRefreshEvent [("a", keyA)]
              (RefreshEvent.mk "u" [] [keyB, keyC] [] [keyA])) k.keyID = some k)
        ∧ (∀ kid,
            kid ∉ (RefreshEvent.mk "u" [] [keyB, keyC] [] [keyA]).keys.map Key.keyID →
            kid ∉ (RefreshEvent.mk "u" [] [keyB, keyC] [] [keyA]).deleted.map Key.keyID →
            mapFind (onRefreshEvent [("a", keyA)]
              (RefreshEvent.mk "u" [] [keyB, keyC] [] [keyA])) kid =
              mapFind [("a", keyA)] kid)) :=
  keyRing_onRefreshEvent_spec [("a", keyA)] (RefreshEvent.mk "u" [] [keyB, keyC] [] [keyA])
    (by decide) (by decide)

/-- C3: key selection of `resolver.fetchKey` after a successful expansion
and fetch: zero fetched keys yield `ErrKeyNotFound`; exactly one fetched key
is returned as-is (regardless of its KeyID); with two or more keys, a
returned key's KeyID equals the requested one, and `ErrKeyNotFound` is
returned when no key matches. -/
theorem resolver_fetchKey_selection (keyID loc : String) (ks : List Key)
    (meta : ContentMeta) :
    (ks = [] →
      fetchKey keyID (loc, []) (ks, meta, []) = (loc, none, [GoError.keyNotFound]))
    ∧ (∀ k, ks = [k] → fetchKey keyID (loc, []) (ks, meta, []) = (loc, some k, []))
    ∧ (2 ≤ ks.length →
        (∀ k e, fetchKey keyID (loc, []) (ks, meta, []) = (loc, some k, e) →
          k.keyID = keyID)
        ∧ ((∀ k ∈ ks, k.keyID ≠ keyID) →
            fetchKey keyID (loc, []) (ks, meta, []) = (loc, none, [GoError.keyNotFound]))) := by
  refine ⟨?_, ?_, ?_⟩
  · rintro rfl
    simp [fetchKey, selectKey]
  · rintro k rfl
    simp [fetchKey, selectKey]
  · intro hlen
    match ks, hlen with
    | k1 :: k2 :: rest, _ =>
      have hfk : fetchKey keyID (loc, []) (k1 :: k2 :: rest, meta, []) =
          (match selectKey keyID (k1 :: k2 :: rest) with
           | .ok k => (loc, some k, ([] : Errs))
           | .error ge => (loc, none, [ge])) := by
        simp [fetchKey]
      constructor
      · intro k e hk
        rw [hfk] at hk
        rcases hfind : List.find? (fun c => c.keyID = keyID) (k1 :: k2 :: rest) with _ | kf
        · rw [show selectKey keyID (k1 :: k2 :: rest) = .error .keyNotFound from by
            rw [selectKey, hfind]] at hk
          simp at hk
        · rw [show selectKey keyID (k1 :: k2 :: rest) = .ok kf from by
            rw [selectKey, hfind]] at hk
          simp only [Prod.mk.injEq] at hk
          have hkf : kf = k := Option.some.inj hk.2.1
          have := List.find?_some hfind
          rw [← hkf]
          simpa using this
      · intro hall
        have hfind : List.find? (fun c => c.keyID = keyID) (k1 :: k2 :: rest) = none := by
          refine List.find?_eq_none.2 ?_
          intro k hk
          simpa using hall k hk
        rw [hfk, show selectKey keyID (k1 :: k2 :: rest) = .error .keyNotFound from by
          rw [selectKey, hfind]]

/-- Witness for C3 on the three-key set of the Resolver test suite, queried
for the missing KeyID "nosuchKey". -/
theorem resolver_fetchKey_selection_witness :
    (([keyA, keyT, keyB] : List Key) = [] →
      fetchKey "nosuchKey" ("http://getkeys.com/nosuchKey", [])
          ([keyA, keyT, keyB], {}, []) =
        ("http://getkeys.com/nosuchKey", none, [GoError.keyNotFound]))
    ∧ (∀ k, ([keyA, keyT, keyB] : List Key) = [k] →
        fetchKey "nosuchKey" ("http://getkeys.com/nosuchKey", [])
            ([keyA, keyT, keyB], {}, []) =
          ("http://getkeys.com/nosuchKey", some k, []))
    ∧ (2 ≤ ([keyA, keyT, keyB] : List Key).length →
        (∀ k e, fetchKey "nosuchKey" ("http://getkeys.com/nosuchKey", [])
              ([keyA, keyT, keyB], {}, []) =
            ("http://getkeys.com/nosuchKey", some k, e) → k.keyID = "nosuchKey")
        ∧ ((∀ k ∈ ([keyA, keyT, keyB] : List Key), k.keyID ≠ "nosuchKey") →
            fetchKey "nosuchKey" ("http://getkeys.com/nosuchKey", [])
                ([keyA, keyT, keyB], {}, []) =
              ("http://getkeys.com/nosuchKey", none, [GoError.keyNotFound]))) :=
  resolver_fetchKey_selection "nosuchKey" "http://getkeys.com/nosuchKey"
    [keyA, keyT, keyB] {}

end Clortho

namespace Clortho

/-! ## Theorems: refresh task iterations (C4, C2) -/

/-- C4: a polling iteration whose fetch fails (non-nil error, context not
cancelled) dispatches an event carrying that error, a copy of the last
successful fetch's keys, and empty New/Deleted; it resets `prevMeta` to the
zero ContentMeta while leaving the previous keys and key map unchanged. -/
theorem refreshTask_error_iteration (uri : String) (s : TaskState)
    (ks : List Key) (meta : ContentMeta) (errs : Errs) (herr : errs ≠ []) :
    runIteration uri s (ks, meta, errs) false =
      some ({ uri := uri, err := errs, keys := s.prevKeys, fresh := [], deleted := [] },
            { prevKeys := s.prevKeys, prevKeyMap := s.prevKeyMap, prevMeta := {} }) := by
  simp [runIteration, herr]

/-- Witness for C4 at a concrete failing iteration. -/
theorem refreshTask_error_iteration_witness :
    runIteration "http://getkeys.com/keys"
        { prevKeys := [keyA, keyB], prevKeyMap := [("a", keyA), ("b", keyB)],
          prevMeta := { format := ".jwk-set" } }
        ([], {}, [GoError.httpStatus "http://getkeys.com/keys" 500]) false =
      some ({ uri := "http://getkeys.com/keys",
              err := [GoError.httpStatus "http://getkeys.com/keys" 500],
              keys := [keyA, keyB], fresh := [], deleted := [] },
            { prevKeys := [keyA, keyB], prevKeyMap := [("a", keyA), ("b", keyB)],
              prevMeta := {} }) :=
  refreshTask_error_iteration "http://getkeys.com/keys"
    { prevKeys := [keyA, keyB], prevKeyMap := [("a", keyA), ("b", keyB)],
      prevMeta := { format := ".jwk-set" } }
    [] {} [GoError.httpStatus "http://getkeys.com/keys" 500] (by decide)

theorem mem_mapInsert {α : Type} {m : List (String × α)} {k : String} {v : α}
    {q : String × α} (hq : q ∈ mapInsert m k v) : q = (k, v) ∨ q ∈ m := by
  induction m with
  | nil => simpa [mapInsert] using hq
  | cons p rest ih =>
    by_cases hp : p.1 = k
    · simp only [mapInsert, if_pos hp, List.mem_cons] at hq
      rcases hq with hq | hq
      · exact Or.inl hq
      · exact Or.inr (List.mem_cons_of_mem _ hq)
    · simp only [mapInsert, if_neg hp, List.mem_cons] at hq
      rcases hq with hq | hq
      · exact Or.inr (hq ▸ List.mem_cons_self _ _)
      · rcases ih hq with h | h
        · exact Or.inl h
        · exact Or.inr (List.mem_cons_of_mem _ h)

/-- Pure fold underlying `newKeyMap` when every key has a KeyID. -/
theorem newKeyMap_eq_pureFold (keys : List Key) (h : ∀ k ∈ keys, k.keyID ≠ "") :
    (newKeyMap keys).1 = keys.foldl (fun m k => mapInsert m k.keyID k) [] := by
  have general : ∀ (l : List Key), (∀ k ∈ l, k.keyID ≠ "") →
      ∀ (m : List (String × Key)) (es : Errs),
      (l.foldl
        (fun acc k =>
          if k.keyID ≠ "" then (mapInsert acc.1 k.keyID k, acc.2)
          else
            match k.thumbprint with
            | .ok bs => (mapInsert acc.1 (base64urlEncode bs) k, acc.2)
            | .err msg => (acc.1, acc.2 ++ [.thumbprintErr msg]))
        (m, es)).1 = l.foldl (fun m k => mapInsert m k.keyID k) m := by
    intro l
    induction l with
    | nil => intro _ m es; rfl
    | cons k rest ih =>
      intro hl m es
      have hk : k.keyID ≠ "" := hl k (List.mem_cons_self _ _)
      simp only [List.foldl_cons, if_pos hk]
      exact ih (fun k' hk' => hl k' (List.mem_cons_of_mem _ hk')) _ _
  exact general keys h [] []

theorem mapFind_pureFold_isSome (keys : List Key) (m : List (String × Key))
    (kid : String) :
    (mapFind (keys.foldl (fun m k => mapInsert m k.keyID k) m) kid).isSome ↔
      kid ∈ keys.map Key.keyID ∨ (mapFind m kid).isSome := by
  induction keys generalizing m with
  | nil => simp
  | cons k rest ih =>
    simp only [List.foldl_cons, List.map_cons, List.mem_cons]
    rw [ih]
    rw [mapFind_insert]
    by_cases hk : kid = k.keyID <;> simp [hk, or_assoc, or_comm, or_left_comm]

theorem mem_pureFold (keys : List Key) (m : List (String × Key))
    (p : String × Key) (hp : p ∈ keys.foldl (fun m k => mapInsert m k.keyID k) m) :
    (p.2 ∈ keys ∧ p.2.keyID = p.1) ∨ p ∈ m := by
  induction keys generalizing m with
  | nil => exact Or.inr hp
  | cons k rest ih =>
    simp only [List.foldl_cons] at hp
    rcases ih _ hp with h | h
    · exact Or.inl ⟨List.mem_cons_of_mem _ h.1, h.2⟩
    · rcases mem_mapInsert h with h | h
      · refine Or.inl ⟨?_, ?_⟩
        · rw [h]; exact List.mem_cons_self _ _
        · rw [h]
      · exact Or.inr h

theorem runIteration_success (uri : String) (s : TaskState) (ks : List Key)
    (meta : ContentMeta) :
    runIteration uri s (ks, meta, []) false =
      some ({ uri := uri, err := [], keys := ks,
              fresh := (findChanges (newKeyMap ks).1 s.prevKeyMap).1,
              deleted := (findChanges (newKeyMap ks).1 s.prevKeyMap).2 },
            { prevKeys := ks, prevKeyMap := (newKeyMap ks).1, prevMeta := meta }) := by
  simp [runIteration]

theorem mapFind_nil {α : Type} (kid : String) :
    mapFind ([] : List (String × α)) kid = none := rfl

theorem mapFind_pureFold_ids (ks : List Key) (kid : String) :
    (mapFind (ks.foldl (fun m k => mapInsert m k.keyID k) []) kid).isSome ↔
      kid ∈ ks.map Key.keyID := by
  rw [mapFind_pureFold_isSome]
  simp [mapFind_nil]

/-- Id-level characterization of the first component of `findChanges`
applied to the key maps of two fetches whose keys all carry KeyIDs. -/
theorem findChanges_ids (ksA ksB : List Key) (kid : String) :
    kid ∈ ((findChanges (ksA.foldl (fun m k => mapInsert m k.keyID k) [])
              (ksB.foldl (fun m k => mapInsert m k.keyID k) [])).1.map Key.keyID) ↔
      (kid ∈ ksA.map Key.keyID ∧ kid ∉ ksB.map Key.keyID) := by
  constructor
  · intro hmem
    rcases List.mem_map.1 hmem with ⟨k, hkmem, hkid⟩
    rcases List.mem_map.1 hkmem with ⟨p, hpfilter, hpsnd⟩
    have hpf := List.mem_filter.1 hpfilter
    rcases mem_pureFold ksA [] p hpf.1 with ⟨hin, hkeq⟩ | habs
    · constructor
      · refine List.mem_map.2 ⟨p.2, hin, ?_⟩
        rw [hpsnd, hkid]
      · intro hc
        have hsome : (mapFind (ksB.foldl (fun m k => mapInsert m k.keyID k) []) p.1).isSome := by
          rw [mapFind_pureFold_ids]
          have hp1kid : p.1 = kid := by rw [← hkeq, hpsnd, hkid]
          rw [hp1kid]
          exact hc
        have hnone := hpf.2
        simp only [decide_eq_true_eq, Option.isNone_iff_eq_none] at hnone
        rw [hnone] at hsome
        simp at hsome
    · exact absurd habs (List.not_mem_nil p)
  · rintro ⟨hin, hnin⟩
    have hsome : (mapFind (ksA.foldl (fun m k => mapInsert m k.keyID k) []) kid).isSome :=
      (mapFind_pureFold_ids ksA kid).2 hin
    rcases hfp : List.find? (fun p => p.1 = kid)
        (ksA.foldl (fun m k => mapInsert m k.keyID k) []) with _ | p
    · simp only [mapFind, hfp, Option.map_none] at hsome
      simp at hsome
    · have hpmem : p ∈ ksA.foldl (fun m k => mapInsert m k.keyID k) [] :=
        List.mem_of_find?_eq_some hfp
      have hp1 : p.1 = kid := by simpa using List.find?_some hfp
      have hkeq : p.2.keyID = p.1 := by
        rcases mem_pureFold ksA [] p hpmem with h | habs
        · exact h.2
        · exact absurd habs (List.not_mem_nil p)
      have hcond : (mapFind (ksB.foldl (fun m k => mapInsert m k.keyID k) []) p.1).isNone := by
        rw [Option.isNone_iff_eq_none, ← Option.not_isSome_iff_eq_none]
        intro hs
        apply hnin
        rw [← hp1]
        exact (mapFind_pureFold_ids ksB p.1).1 hs
      refine List.mem_map.2 ⟨p.2, List.mem_map.2 ⟨p, List.mem_filter.2 ⟨hpmem, ?_⟩, rfl⟩, ?_⟩
      · simpa using hcond
      · rw [hkeq, hp1]

/-- Values of the first component of `findChanges` come from the first
key list. -/
theorem findChanges_fst_sub (ksA ksB : List Key) (k : Key)
    (hk : k ∈ (findChanges (ksA.foldl (fun m k => mapInsert m k.keyID k) [])
        (ksB.foldl (fun m k => mapInsert m k.keyID k) [])).1) : k ∈ ksA := by
  simp only [findChanges, List.mem_map, List.mem_filter] at hk
  rcases hk with ⟨p, ⟨hpmem, _⟩, hp2⟩
  rcases mem_pureFold ksA [] p hpmem with ⟨hin, _⟩ | habs
  · exact hp2 ▸ hin
  · exact absurd habs (List.not_mem_nil p)

/-- The deleted component of `findChanges next prev` is the new component
of `findChanges prev next`. -/
theorem findChanges_swap (n p : List (String × Key)) :
    (findChanges n p).2 = (findChanges p n).1 := rfl

/-- C2: across two consecutive successful polling iterations, the second
event's New is `keys_n` minus `keys_{n-1}` and its Deleted is `keys_{n-1}`
minus `keys_n`, the set differences being taken on KeyIDs; its Keys field
is (a copy of) the keys of the current fetch. -/
theorem refreshTask_consecutive_success_delta (uri : String) (s0 : TaskState)
    (ks1 ks2 : List Key) (m1 m2 : ContentMeta) (e1 e2 : RefreshEvent)
    (s1 s2 : TaskState)
    (h1 : ∀ k ∈ ks1, k.keyID ≠ "") (h2 : ∀ k ∈ ks2, k.keyID ≠ "")
    (hit1 : runIteration uri s0 (ks1, m1, []) false = some (e1, s1))
    (hit2 : runIteration uri s1 (ks2, m2, []) false = some (e2, s2)) :
    e2.keys = ks2
    ∧ (∀ kid, kid ∈ e2.fresh.map Key.keyID ↔
        (kid ∈ ks2.map Key.keyID ∧ kid ∉ ks1.map Key.keyID))
    ∧ (∀ kid, kid ∈ e2.deleted.map Key.keyID ↔
        (kid ∈ ks1.map Key.keyID ∧ kid ∉ ks2.map Key.keyID))
    ∧ (∀ k ∈ e2.fresh, k ∈ ks2) ∧ (∀ k ∈ e2.deleted, k ∈ ks1) := by
  rw [runIteration_success] at hit1 hit2
  obtain ⟨hev1, hst1⟩ := Prod.ext_iff.1 (Option.some.inj hit1)
  obtain ⟨hev2, hst2⟩ := Prod.ext_iff.1 (Option.some.inj hit2)
  dsimp only at hev1 hst1 hev2 hst2
  have hs1map : s1.prevKeyMap = (newKeyMap ks1).1 := by rw [← hst1]
  have hkeys : e2.keys = ks2 := by rw [← hev2]
  have hfresh : e2.fresh = (findChanges (newKeyMap ks2).1 (newKeyMap ks1).1).1 := by
    rw [← hev2, ← hs1map]
  have hdel : e2.deleted = (findChanges (newKeyMap ks2).1 (newKeyMap ks1).1).2 := by
    rw [← hev2, ← hs1map]
  rw [newKeyMap_eq_pureFold ks1 h1, newKeyMap_eq_pureFold ks2 h2] at hfresh hdel
  refine ⟨hkeys, ?_, ?_, ?_, ?_⟩
  · intro kid
    rw [hfresh]
    exact findChanges_ids ks2 ks1 kid
  · intro kid
    rw [hdel, findChanges_swap]
    exact findChanges_ids ks1 ks2 kid
  · intro k hk
    rw [hfresh] at hk
    exact findChanges_fst_sub ks2 ks1 k hk
  · intro k hk
    rw [hdel, findChanges_swap] at hk
    exact findChanges_fst_sub ks1 ks2 k hk

/-- Witness for C2 on the spec's delta scenario: first poll keys
{a, b, c}, second poll keys {a, c, d}: the second event has keys {a, c, d},
New {d} and Deleted {b}. -/
theorem refreshTask_consecutive_success_delta_witness :
    (RefreshEvent.mk "u" [] [keyA, keyC, keyD] [keyD] [keyB]).keys = [keyA, keyC, keyD]
    ∧ (∀ kid, kid ∈ (RefreshEvent.mk "u" [] [keyA, keyC, keyD] [keyD] [keyB]).fresh.map Key.keyID ↔
        (kid ∈ [keyA, keyC, keyD].map Key.keyID ∧ kid ∉ [keyA, keyB, keyC].map Key.keyID))
    ∧ (∀ kid, kid ∈ (RefreshEvent.mk "u" [] [keyA, keyC, keyD] [keyD] [keyB]).deleted.map Key.keyID ↔
        (kid ∈ [keyA, keyB, keyC].map Key.keyID ∧ kid ∉ [keyA, keyC, keyD].map Key.keyID))
    ∧ (∀ k ∈ (RefreshEvent.mk "u" [] [keyA, keyC, keyD] [keyD] [keyB]).fresh, k ∈ [keyA, keyC, keyD])
    ∧ (∀ k ∈ (RefreshEvent.mk "u" [] [keyA, keyC, keyD] [keyD] [keyB]).deleted, k ∈ [keyA, keyB, keyC]) :=
  refreshTask_consecutive_success_delta "u" {} [keyA, keyB, keyC] [keyA, keyC, keyD] {} {}
    (RefreshEvent.mk "u" [] [keyA, keyB, keyC] [keyA, keyB, keyC] [])
    (RefreshEvent.mk "u" [] [keyA, keyC, keyD] [keyD] [keyB])
    ⟨[keyA, keyB, keyC], [("a", keyA), ("b", keyB), ("c", keyC)], {}⟩
    ⟨[keyA, keyC, keyD], [("a", keyA), ("c", keyC), ("d", keyD)], {}⟩
    (by decide) (by decide) (by decide) (by decide)

end Clortho

namespace Clortho

/-! ## Theorems: Fetcher KeyID guarantee (C5) -/

theorem base64urlEncode_ne_empty (bs : List Nat) (h : bs ≠ []) :
    base64urlEncode bs ≠ "" := by
  intro hc
  have hdata : base64urlChars bs = [] := by
    have := congrArg String.data hc
    simpa [base64urlEncode] using this
  match bs, h with
  | [b1], _ => simp [base64urlChars] at hdata
  | [b1, b2], _ => simp [base64urlChars] at hdata
  | b1 :: b2 :: b3 :: rest, _ => simp [base64urlChars] at hdata

theorem foldl_append_split (keys : List Key) (e0 : Errs) :
    ∃ t, keys.foldl (fun es k => es ++ (ensureKeyID k).2) e0 = e0 ++ t := by
  induction keys generalizing e0 with
  | nil => exact ⟨[], by simp⟩
  | cons k rest ih =>
    rcases ih (e0 ++ (ensureKeyID k).2) with ⟨t, ht⟩
    exact ⟨(ensureKeyID k).2 ++ t, by simpa [List.append_assoc] using ht⟩

theorem foldl_append_ne_of_mem (keys : List Key) (e0 : Errs) (k : Key)
    (hk : k ∈ keys) (hne : (ensureKeyID k).2 ≠ []) :
    keys.foldl (fun es k => es ++ (ensureKeyID k).2) e0 ≠ [] := by
  induction keys generalizing e0 with
  | nil => exact absurd hk (List.not_mem_nil k)
  | cons k0 rest ih =>
    simp only [List.foldl_cons]
    rcases List.mem_cons.1 hk with hk0 | hkrest
    · subst hk0
      rcases foldl_append_split rest (e0 ++ (ensureKeyID k).2) with ⟨t, ht⟩
      rw [ht]
      intro hc
      rcases List.append_eq_nil.1 hc with ⟨hc1, _⟩
      rcases List.append_eq_nil.1 hc1 with ⟨_, hc2⟩
      exact hne hc2
    · exact ih _ hkrest

/-- C5 counterexample: a parsed key with an empty KeyID whose thumbprint
computation fails is returned by `fetcher.Fetch` unchanged, still carrying
an empty KeyID (with the thumbprint error aggregated); so not every key in
the returned slice has a non-empty KeyID. -/
theorem fetcher_fetch_keyID_counterexample :
    (fetcherFetch ([], { format := ".jwk" }, []) (fun _ _ => ([badKey], []))).1 = [badKey]
    ∧ badKey.keyID = ""
    ∧ (fetcherFetch ([], { format := ".jwk" }, []) (fun _ _ => ([badKey], []))).2.2 =
        [GoError.thumbprintErr "thumbprint failure"] := by
  refine ⟨?_, rfl, ?_⟩ <;> rfl

/-- C5 (amended): `fetcher.Fetch` replaces every parsed key by its
`EnsureKeyID` image; every key whose thumbprint computation did not fail
ends up with a non-empty KeyID (synthesized from the base64url-encoded
thumbprint when the parsed KeyID was empty); a key whose thumbprint fails
is returned unchanged, with its empty KeyID, and the error is aggregated
into the returned error while the remaining keys are still returned.
The hypothesis `hthumb` records that a hash always produces at least one
byte. -/
theorem fetcher_fetch_ensures_keyIDs (data : List Nat) (meta : ContentMeta)
    (parseFn : String → List Nat → List Key × Errs)
    (hthumb : ∀ k ∈ (parseFn meta.format data).1, ∀ bs,
        k.thumbprint = .ok bs → bs ≠ []) :
    ((fetcherFetch (data, meta, []) parseFn).1 =
        (parseFn meta.format data).1.map (fun k => (ensureKeyID k).1))
    ∧ (∀ k ∈ (parseFn meta.format data).1, (ensureKeyID k).2 = [] →
        (ensureKeyID k).1.keyID ≠ "")
    ∧ (∀ k ∈ (parseFn meta.format data).1, (ensureKeyID k).2 ≠ [] →
        (ensureKeyID k).1 = k ∧ (fetcherFetch (data, meta, []) parseFn).2.2 ≠ []) := by
  refine ⟨by simp [fetcherFetch], ?_, ?_⟩
  · intro k hk hsucc
    by_cases hne : k.keyID ≠ ""
    · rw [show (ensureKeyID k).1 = k from by simp [ensureKeyID, hne]]
      exact hne
    · rw [not_ne_iff] at hne
      rcases hth : k.thumbprint with bs | m
      · rw [show (ensureKeyID k).1 = { k with keyID := base64urlEncode bs } from by
          simp [ensureKeyID, hne, hth]]
        exact base64urlEncode_ne_empty bs (hthumb k hk bs hth)
      · rw [show (ensureKeyID k).2 = [.thumbprintErr m] from by
          simp [ensureKeyID, hne, hth]] at hsucc
        exact absurd hsucc (by simp)
  · intro k hk hfail
    by_cases hne : k.keyID ≠ ""
    · rw [show (ensureKeyID k).2 = [] from by simp [ensureKeyID, hne]] at hfail
      exact absurd rfl hfail
    · rw [not_ne_iff] at hne
      rcases hth : k.thumbprint with bs | m
      · rw [show (ensureKeyID k).2 = [] from by simp [ensureKeyID, hne, hth]] at hfail
        exact absurd rfl hfail
      · constructor
        · simp [ensureKeyID, hne, hth]
        · show (parseFn meta.format data).1.foldl
              (fun es k => es ++ (ensureKeyID k).2)
              (if (([] : Errs) = []) then parseFn meta.format data else
                (([] : List Key), ([] : Errs))).2 ≠ []
          exact foldl_append_ne_of_mem _ _ k hk hfail

/-- Witness for C5 (amended) on a parse result containing one key without
a KeyID (good thumbprint) and one key with a KeyID. -/
theorem fetcher_fetch_ensures_keyIDs_witness :
    ((fetcherFetch ([], { format := ".jwk-set" }, [])
          (fun _ _ => ([keyNoID, keyA], []))).1 =
        [keyNoID, keyA].map (fun k => (ensureKeyID k).1))
    ∧ (∀ k ∈ [keyNoID, keyA], (ensureKeyID k).2 = [] →
        (ensureKeyID k).1.keyID ≠ "")
    ∧ (∀ k ∈ [keyNoID, keyA], (ensureKeyID k).2 ≠ [] →
        (ensureKeyID k).1 = k ∧
        (fetcherFetch ([], { format := ".jwk-set" }, [])
            (fun _ _ => ([keyNoID, keyA], []))).2.2 ≠ []) :=
  fetcher_fetch_ensures_keyIDs [] { format := ".jwk-set" }
    (fun _ _ => ([keyNoID, keyA], []))
    (by
      intro k hk bs hbs
      rcases List.mem_cons.1 hk with rfl | hk2
      · simp only [keyNoID] at hbs
        cases hbs
        simp
      · rcases List.mem_cons.1 hk2 with rfl | hk3
        · simp only [keyA] at hbs
          cases hbs
          simp
        · exact absurd hk3 (List.not_mem_nil _))

end Clortho

namespace Clortho

/-! ## Theorems: jitter window (C6) and the TTL branch panic (C10) -/

theorem goTrunc_le_intCast {v : ℚ} {n : ℤ} (h : v ≤ (n : ℚ)) : goTrunc v ≤ n := by
  rw [goTrunc]
  split
  · calc ⌊v⌋ ≤ ⌊(n : ℚ)⌋ := Int.floor_mono h
      _ = n := Int.floor_intCast n
  · calc ⌈v⌉ ≤ ⌈(n : ℚ)⌉ := Int.ceil_mono h
      _ = n := Int.ceil_intCast n

theorem newJitterer_jitter_bounds (source : RefreshSource) :
    0 < (newJitterer source).jitter ∧ (newJitterer source).jitter < 1 := by
  by_cases h : source.jitter ≤ 0 ∨ 1 ≤ source.jitter
  · rw [show (newJitterer source).jitter = DefaultRefreshJitter from by
      simp [newJitterer, h]]
    norm_num [DefaultRefreshJitter]
  · push_neg at h
    rw [show (newJitterer source).jitter = source.jitter from by
      simp [newJitterer, not_or.2 ⟨not_le.2 h.1, not_le.2 h.2⟩]]
    exact h

theorem newJitterer_ttlBaseMultiplier (source : RefreshSource) :
    (newJitterer source).ttlBaseMultiplier = 1 - 2 * (newJitterer source).jitter := by
  by_cases h : source.jitter ≤ 0 ∨ 1 ≤ source.jitter <;> simp [newJitterer, h]

/-- C6: with no fetch error and a positive server TTL, the interval computed
by `jitterer.nextInterval` lies in
`[max(minInterval, (1 − 2·jitter)·ttl), max(minInterval, ttl)]` (the lower
endpoint carrying Go's int64 truncation of the float product); additionally
the `rand.Int63n` range is positive, and the interval can only exceed the
TTL when the minInterval floor forces it. -/
theorem jitterer_ttl_window (source : RefreshSource) (meta : ContentMeta)
    (fetchErr : Errs) (r : Int) (herr : fetchErr = []) (httl : 0 < meta.ttl)
    (hr0 : 0 ≤ r)
    (hr1 : r < meta.ttl -
      goTrunc ((newJitterer source).ttlBaseMultiplier * (meta.ttl : ℚ)) + 1) :
    0 < meta.ttl - goTrunc ((newJitterer source).ttlBaseMultiplier * (meta.ttl : ℚ)) + 1
    ∧ max (newJitterer source).minInterval
        (goTrunc ((newJitterer source).ttlBaseMultiplier * (meta.ttl : ℚ))) ≤
        jitterNextInterval (newJitterer source) meta fetchErr r
    ∧ jitterNextInterval (newJitterer source) meta fetchErr r ≤
        max (newJitterer source).minInterval meta.ttl
    ∧ (meta.ttl < jitterNextInterval (newJitterer source) meta fetchErr r →
        jitterNextInterval (newJitterer source) meta fetchErr r =
          (newJitterer source).minInterval) := by
  have hj := newJitterer_jitter_bounds source
  have httlq : (0 : ℚ) < (meta.ttl : ℚ) := by exact_mod_cast httl
  have hmul : (newJitterer source).ttlBaseMultiplier < 1 := by
    rw [newJitterer_ttlBaseMultiplier]
    linarith [hj.1]
  have hvlt : (newJitterer source).ttlBaseMultiplier * (meta.ttl : ℚ) ≤ (meta.ttl : ℚ) := by
    calc (newJitterer source).ttlBaseMultiplier * (meta.ttl : ℚ)
        ≤ 1 * (meta.ttl : ℚ) := mul_le_mul_of_nonneg_right (le_of_lt hmul) (le_of_lt httlq)
      _ = (meta.ttl : ℚ) := one_mul _
  have hbase : goTrunc ((newJitterer source).ttlBaseMultiplier * (meta.ttl : ℚ)) ≤ meta.ttl :=
    goTrunc_le_intCast hvlt
  have hcond : ¬ (fetchErr ≠ [] ∨ meta.ttl ≤ 0) := by
    rw [not_or]
    exact ⟨by simp [herr], not_le.2 httl⟩
  have hnext : jitterNextInterval (newJitterer source) meta fetchErr r =
      (if goTrunc ((newJitterer source).ttlBaseMultiplier * (meta.ttl : ℚ)) + r <
          (newJitterer source).minInterval
        then (newJitterer source).minInterval
        else goTrunc ((newJitterer source).ttlBaseMultiplier * (meta.ttl : ℚ)) + r) := by
    rw [jitterNextInterval]
    simp only [if_neg hcond]
  refine ⟨by omega, ?_, ?_, ?_⟩
  · rw [hnext]
    by_cases hclamp : goTrunc ((newJitterer source).ttlBaseMultiplier * (meta.ttl : ℚ)) + r <
        (newJitterer source).minInterval
    · rw [if_pos hclamp]
      exact max_le (le_refl _) (by omega)
    · rw [if_neg hclamp]
      exact max_le (by omega) (by omega)
  · rw [hnext]
    by_cases hclamp : goTrunc ((newJitterer source).ttlBaseMultiplier * (meta.ttl : ℚ)) + r <
        (newJitterer source).minInterval
    · rw [if_pos hclamp]
      exact le_max_left _ _
    · rw [if_neg hclamp]
      exact le_trans (by omega) (le_max_right _ _)
  · rw [hnext]
    by_cases hclamp : goTrunc ((newJitterer source).ttlBaseMultiplier * (meta.ttl : ℚ)) + r <
        (newJitterer source).minInterval
    · rw [if_pos hclamp]
      intro _
      rfl
    · rw [if_neg hclamp]
      intro h
      exact absurd h (by omega)

/-- Witness for C6 at the spec's `max-age` scenario: interval 24h,
minInterval 10m, jitter 0.1, server TTL 1h, and the random sample 0. -/
theorem jitterer_ttl_window_witness :
    0 < (3600000000000 : Int) -
      goTrunc ((newJitterer ⟨"u", 86400000000000, 600000000000, 1 / 10⟩).ttlBaseMultiplier *
        ((3600000000000 : Int) : ℚ)) + 1
    ∧ max (newJitterer ⟨"u", 86400000000000, 600000000000, 1 / 10⟩).minInterval
        (goTrunc ((newJitterer ⟨"u", 86400000000000, 600000000000, 1 / 10⟩).ttlBaseMultiplier *
          ((3600000000000 : Int) : ℚ))) ≤
        jitterNextInterval (newJitterer ⟨"u", 86400000000000, 600000000000, 1 / 10⟩)
          { ttl := 3600000000000 } [] 0
    ∧ jitterNextInterval (newJitterer ⟨"u", 86400000000000, 600000000000, 1 / 10⟩)
          { ttl := 3600000000000 } [] 0 ≤
        max (newJitterer ⟨"u", 86400000000000, 600000000000, 1 / 10⟩).minInterval 3600000000000
    ∧ ((3600000000000 : Int) <
        jitterNextInterval (newJitterer ⟨"u", 86400000000000, 600000000000, 1 / 10⟩)
          { ttl := 3600000000000 } [] 0 →
        jitterNextInterval (newJitterer ⟨"u", 86400000000000, 600000000000, 1 / 10⟩)
          { ttl := 3600000000000 } [] 0 =
          (newJitterer ⟨"u", 86400000000000, 600000000000, 1 / 10⟩).minInterval) :=
  jitterer_ttl_window ⟨"u", 86400000000000, 600000000000, 1 / 10⟩
    { ttl := 3600000000000 } [] 0 rfl (by norm_num) (by norm_num)
    (by norm_num [newJitterer, goTrunc])

/-- C10 is a code bug: for the validated default source (jitter 0.1) and a
fetch with no error and TTL one hour, the argument
`int64(meta.TTL) - int64(2.0*(1.0-jitter)*float64(meta.TTL)) + 1` that
`refreshTask.computeNextRefresh` passes to `rand.Int63n` is negative, so
`rand.Int63n` panics; the claim that this argument is always positive is
false on the code. -/
theorem computeNextRefresh_panics_on_ttl :
    (validateSource ⟨"http://getkeys.com/keys", 0, 0, 0⟩).2 = []
    ∧ (validateSource ⟨"http://getkeys.com/keys", 0, 0, 0⟩).1.jitter = 1 / 10
    ∧ computeNextRefreshArg (1 / 10) 3600000000000 < 0
    ∧ computeNextRefresh (validateSource ⟨"http://getkeys.com/keys", 0, 0, 0⟩).1
        { ttl := 3600000000000 } [] 0 = .error "rand.Int63n: invalid argument" := by
  refine ⟨?_, ?_, ?_, ?_⟩
  · have huri : ¬ ("http://getkeys.com/keys" = "") := by decide
    simp only [validateSource, DefaultRefreshMinInterval, DefaultRefreshInterval]
    norm_num [huri]
  · norm_num [validateSource, DefaultRefreshJitter]
  · norm_num [computeNextRefreshArg, goTrunc]
  · norm_num [computeNextRefresh, computeNextRefreshArg, goTrunc, validateSource,
      DefaultRefreshJitter, DefaultRefreshMinInterval, DefaultRefreshInterval]

end Clortho

namespace Clortho

/-! ## Theorems: HTTP 304 handling (C8) and listener replay (C7) -/

/-- C8 is a code bug: on a 304 Not Modified response `HTTPLoader.LoadContent`
does return an empty body and no error, but not the zero ContentMeta: it
returns `newMeta(response)`, whose Format falls back to "application/json"
even when the 304 carries no headers at all, so the returned meta is never
the zero value.  The repo's own test (loader_test.go,
testHTTPStatusNotModified) expects exactly `ContentMeta{}` here. -/
theorem http_loader_304_meta (parseTime : String → Option Int) :
    loadContentHTTP parseTime ⟨304, [], [], "http://getkeys.com/keys"⟩ {} =
      ([], { format := "application/json" }, [])
    ∧ ({ format := "application/json" } : ContentMeta) ≠ ({} : ContentMeta) := by
  constructor
  · rfl
  · intro hc
    have hf := congrArg ContentMeta.format hc
    exact absurd hf (by decide)

theorem mapFind_of_mem_nodup {α : Type} (m : List (String × α)) (q : String × α)
    (hq : q ∈ m) (hnd : (m.map Prod.fst).Nodup) : mapFind m q.1 = some q.2 := by
  induction m with
  | nil => exact absurd hq (List.not_mem_nil q)
  | cons r rest ih =>
    simp only [List.map_cons, List.nodup_cons] at hnd
    rcases List.mem_cons.1 hq with rfl | hq2
    · rw [mapFind_cons, if_pos rfl]
    · rw [mapFind_cons]
      have hr : ¬ (r.1 = q.1) := by
        intro hc2
        exact hnd.1 (hc2 ▸ List.mem_map_of_mem Prod.fst hq2)
      rw [if_neg hr]
      exact ih hq2 hnd.2

theorem rlState_append (xs : List RLOp) (op : RLOp) :
    rlState (xs ++ [op]) = (rlStep (rlState xs) op).1 := by
  simp [rlState, List.foldl_append]

theorem rlState_invariant (ops : List RLOp) :
    (rlState ops).listeners = listenersOf ops
    ∧ (∀ uri, mapFind (rlState ops).cache uri = lastEventFor ops uri)
    ∧ ((rlState ops).cache.map Prod.fst).Nodup
    ∧ (∀ q ∈ (rlState ops).cache, q.2.uri = q.1) := by
  induction ops using List.reverseRecOn with
  | nil =>
    refine ⟨rfl, fun uri => rfl, by simp [rlState], ?_⟩
    intro q hq
    exact absurd hq (List.not_mem_nil q)
  | append_singleton xs op ih =>
    rw [rlState_append]
    cases op with
    | add l =>
      refine ⟨?_, ?_, ?_, ?_⟩
      · simp only [rlStep, rlAddListener, listenersOf, List.filterMap_append]
        rw [show (rlState xs).listeners = listenersOf xs from ih.1]
        simp [listenersOf]
      · intro uri
        simp only [rlStep, rlAddListener]
        rw [ih.2.1 uri]
        simp [lastEventFor, List.reverse_append]
      · simpa [rlStep, rlAddListener] using ih.2.2.1
      · simpa [rlStep, rlAddListener] using ih.2.2.2
    | dispatchEvent e =>
      refine ⟨?_, ?_, ?_, ?_⟩
      · simp only [rlStep, rlDispatch, listenersOf, List.filterMap_append]
        rw [show (rlState xs).listeners = listenersOf xs from ih.1]
        simp [listenersOf]
      · intro uri
        simp only [rlStep, rlDispatch]
        rw [mapFind_insert]
        by_cases huri : uri = e.uri
        · rw [if_pos huri]
          simp [lastEventFor, List.reverse_append, huri]
        · rw [if_neg huri, ih.2.1 uri]
          have hne : ¬ (e.uri = uri) := fun hc => huri hc.symm
          simp [lastEventFor, List.reverse_append, hne]
      · exact nodup_mapInsert _ _ _ ih.2.2.1
      · intro q hq
        rcases mem_mapInsert hq with rfl | hq2
        · rfl
        · exact ih.2.2.2 q hq2

/-- C7 counterexample: a listener (id 7) added after `ev1` was dispatched
synchronously receives `ev1` at registration, so a listener can receive an
event that was dispatched before it registered. -/
theorem refreshListeners_no_replay_counterexample :
    (rlAddListener (rlState [RLOp.dispatchEvent ev1]) 7).2 = [(7, ev1)] := by
  rfl

/-- C7 (amended): a listener added via `AddListener` synchronously receives,
at registration, exactly the cached most recent event of each source URI
dispatched before its registration; apart from that replay, a dispatch
delivers the event only to listeners registered before the dispatch. -/
theorem refreshListeners_registration_replay (ops : List RLOp) (l : Nat)
    (ev : RefreshEvent) :
    (∀ p ∈ (rlAddListener (rlState ops) l).2,
        p.1 = l ∧ lastEventFor ops p.2.uri = some p.2)
    ∧ (∀ p ∈ (rlDispatch (rlState ops) ev).2, p.2 = ev ∧ p.1 ∈ listenersOf ops) := by
  obtain ⟨hl, hc, hnd, hent⟩ := rlState_invariant ops
  constructor
  · intro p hp
    simp only [rlAddListener, List.mem_map] at hp
    rcases hp with ⟨q, hq, hpq⟩
    refine ⟨by rw [← hpq], ?_⟩
    have hfind : mapFind (rlState ops).cache q.1 = some q.2 :=
      mapFind_of_mem_nodup _ q hq hnd
    rw [← hpq]
    simp only
    rw [hent q hq, ← hc q.1]
    exact hfind
  · intro p hp
    simp only [rlDispatch, List.mem_map] at hp
    rcases hp with ⟨t, ht, hpt⟩
    refine ⟨by rw [← hpt], ?_⟩
    rw [← hpt]
    simp only
    rw [← hl]
    exact ht

/-- Witness for C7 (amended) after one dispatch of `ev1`: the replay to a
newly added listener 7 and a subsequent dispatch of `ev2`. -/
theorem refreshListeners_registration_replay_witness :
    (∀ p ∈ (rlAddListener (rlState [RLOp.dispatchEvent ev1]) 7).2,
        p.1 = 7 ∧ lastEventFor [RLOp.dispatchEvent ev1] p.2.uri = some p.2)
    ∧ (∀ p ∈ (rlDispatch (rlState [RLOp.dispatchEvent ev1]) ev2).2,
        p.2 = ev2 ∧ p.1 ∈ listenersOf [RLOp.dispatchEvent ev1]) :=
  refreshListeners_registration_replay [RLOp.dispatchEvent ev1] 7 ev2

end Clortho

namespace Clortho

/-! ## Theorems: resolver request coalescing (C1) -/

theorem getStat_set_self (l : List TStat) (t : Nat) (st : TStat)
    (h : t < l.length) : (l.set t st).getD t .idle = st := by
  simp [List.getD, List.getElem?_set_self', h]

theorem getStat_set_ne (l : List TStat) (t t2 : Nat) (st : TStat) (h : t ≠ t2) :
    (l.set t st).getD t2 .idle = l.getD t2 .idle := by
  simp [List.getD, List.getElem?_set_ne h]

theorem getStat_init (n t : Nat) : getStat (initConfig n) t = .idle := by
  simp only [getStat, initConfig, List.getD]
  rcases lt_or_ge t n with h | h
  · simp [List.getElem?_replicate, h]
  · rw [List.get?_eq_none.2 (by simpa using h)]
    rfl

theorem runTrace_append (c : RConfig) (xs : List RAct) (a : RAct) :
    runTrace c (xs ++ [a]) =
      match runTrace c xs with
      | some c1 => rexec c1 a
      | none => none := by
  induction xs generalizing c with
  | nil =>
    simp only [List.nil_append, runTrace]
    cases rexec c a <;> simp [runTrace]
  | cons b rest ih =>
    simp only [List.cons_append, runTrace]
    cases rexec c b <;> simp [ih]

theorem all_not_of_any_eq_false (l : List RAct)
    (h : l.all (fun b => !(isCompletionAct b)) = true) :
    l.any isCompletionAct = false := by
  induction l with
  | nil => rfl
  | cons b rest ih =>
    simp only [List.all_cons, Bool.and_eq_true, Bool.not_eq_eq_eq_not, Bool.not_true] at h
    simp [List.any_cons, h.1, ih h.2]

theorem ebc_snoc (tr : List RAct) (a : RAct)
    (h : entersBeforeCompletions (tr ++ [a]) = true) :
    entersBeforeCompletions tr = true ∧
      (isEnter a = true → tr.all (fun b => !(isCompletionAct b)) = true) := by
  induction tr with
  | nil => simp [entersBeforeCompletions]
  | cons b rest ih =>
    simp only [List.cons_append, entersBeforeCompletions, Bool.and_eq_true] at h ⊢
    obtain ⟨h1, h2⟩ := h
    simp only [List.append_eq] at h1 h2
    obtain ⟨ih1, ih2⟩ := ih h2
    by_cases hb : isCompletionAct b = true
    · rw [if_pos hb] at h1
      rw [List.all_append] at h1
      simp only [Bool.and_eq_true] at h1
      refine ⟨⟨by rw [if_pos hb]; exact h1.1, ih1⟩, ?_⟩
      intro ha
      have := h1.2
      simp only [List.all_cons, List.all_nil, Bool.and_true, ha, Bool.not_true] at this
      exact absurd this (by simp)
    · rw [if_neg hb] at h1
      refine ⟨⟨by rw [if_neg hb], ih1⟩, ?_⟩
      intro ha
      simp only [List.all_cons, Bool.and_eq_true]
      constructor
      · simp only [Bool.not_eq_eq_eq_not, Bool.not_true]
        exact Bool.not_eq_true _ ▸ (by simpa using hb)
      · exact ih2 ha

theorem rexec_fetchCount (c : RConfig) (a : RAct) (c2 : RConfig)
    (h : rexec c a = some c2) :
    c2.fetchCount = c.fetchCount + (if isFetchAct a then 1 else 0) := by
  cases a with
  | enter t =>
    simp only [rexec] at h
    split at h
    · split at h
      · obtain rfl := Option.some.inj h
        simp [setStat, isFetchAct]
      · split at h
        · obtain rfl := Option.some.inj h
          simp [setStat, isFetchAct]
        · obtain rfl := Option.some.inj h
          simp [setStat, isFetchAct]
    · exact absurd h (by simp)
  | fetch t =>
    simp only [rexec] at h
    split at h
    · obtain rfl := Option.some.inj h
      simp [setStat, isFetchAct]
    · exact absurd h (by simp)
  | addRing t =>
    simp only [rexec] at h
    split at h
    · obtain rfl := Option.some.inj h
      simp [setStat, isFetchAct]
    · exact absurd h (by simp)
  | cleanup t =>
    simp only [rexec] at h
    split at h
    · obtain rfl := Option.some.inj h
      simp [setStat, isFetchAct]
    · obtain rfl := Option.some.inj h
      simp [setStat, isFetchAct]
    · exact absurd h (by simp)
  | observe t =>
    simp only [rexec] at h
    split at h
    · split at h
      · obtain rfl := Option.some.inj h
        simp [setStat, isFetchAct]
      · exact absurd h (by simp)
    · exact absurd h (by simp)

theorem runTrace_fetchCount (tr : List RAct) (c c2 : RConfig)
    (h : runTrace c tr = some c2) :
    c2.fetchCount = c.fetchCount + countFetches tr := by
  induction tr generalizing c with
  | nil =>
    obtain rfl := Option.some.inj h
    simp [countFetches]
  | cons a rest ih =>
    simp only [runTrace] at h
    rcases ha : rexec c a with _ | c1
    · rw [ha] at h
      exact absurd h (by simp)
    · rw [ha] at h
      have h1 := rexec_fetchCount c a c1 ha
      have h2 := ih c1 h
      rw [h2, h1]
      by_cases hf : isFetchAct a = true
      · simp only [countFetches, List.filter_cons, hf, if_pos, List.length_cons, if_true]
        omega
      · simp only [countFetches, List.filter_cons, hf, Bool.false_eq_true, if_false]
        omega

theorem head?_append_some {α : Type} {l : List α} {x : α} (h : l.head? = some x)
    (l2 : List α) : (l ++ l2).head? = some x := by
  cases l with
  | nil => simp at h
  | cons y ys => simpa using h

theorem resolverInv_holds (n : Nat) (tr : List RAct) (c : RConfig)
    (hrun : runTrace (initConfig n) tr = some c)
    (hres : entersBeforeCompletions tr = true) :
    resolverInv tr c n := by
  induction tr using List.reverseRecOn generalizing c with
  | nil =>
    obtain rfl : initConfig n = c := Option.some.inj hrun
    rw [resolverInv, if_neg (by simp)]
    refine ⟨by simp [initConfig], rfl, rfl, Or.inl ⟨rfl, rfl, rfl, ?_, rfl⟩⟩
    intro t
    exact getStat_init n t
  | append_singleton xs a ih =>
    rw [runTrace_append] at hrun
    rcases hxs : runTrace (initConfig n) xs with _ | c1
    · rw [hxs] at hrun
      exact absurd hrun (by simp)
    rw [hxs] at hrun
    obtain ⟨hres1, hresE⟩ := ebc_snoc xs a hres
    have hinv := ih c1 hxs hres1
    cases a with
    | enter t =>
      have hnc : xs.any isCompletionAct = false :=
        all_not_of_any_eq_false xs (hresE rfl)
      rw [resolverInv, if_neg (by simp [hnc])] at hinv
      rw [resolverInv, if_neg (by simp [hnc, List.any_append, isCompletionAct])]
      obtain ⟨hlen, hring, hclosed, hdisj⟩ := hinv
      simp only [rexec] at hrun
      split at hrun
      case isFalse => exact absurd hrun (by simp)
      case isTrue hguard =>
        obtain ⟨htlen, hidle⟩ := hguard
        rw [hring] at hrun
        simp only [Bool.false_eq_true, if_false] at hrun
        rcases hdisj with ⟨hpend, hnri, hfc, hall, hents⟩ |
            ⟨t0, ht0n, hpend, hnri, hhead, howner, hothers⟩
        · rw [hpend] at hrun
          obtain rfl := Option.some.inj hrun
          refine ⟨by simpa [setStat] using hlen, hring, hclosed,
            Or.inr ⟨t, hlen ▸ htlen, ?_, ?_, ?_, ?_, ?_⟩⟩
          · show some c1.nextRid = some 0
            rw [hnri]
          · show c1.nextRid + 1 = 1
            rw [hnri]
          · rw [List.filterMap_append, hents]
            rfl
          · left
            constructor
            · show (c1.threads.set t (TStat.ownerFetching c1.nextRid)).getD t .idle =
                TStat.ownerFetching 0
              rw [getStat_set_self _ _ _ htlen, hnri]
            · exact hfc
          · intro t2 ht2
            left
            show (c1.threads.set t (TStat.ownerFetching c1.nextRid)).getD t2 .idle =
              TStat.idle
            rw [getStat_set_ne _ _ _ _ (Ne.symm ht2)]
            exact hall t2
        · rw [hpend] at hrun
          obtain rfl := Option.some.inj hrun
          have hnt : t ≠ t0 := by
            intro heq
            rw [heq] at hidle
            rcases howner with ⟨ho, _⟩ | ⟨ho, _⟩ <;>
              exact absurd (ho.symm.trans hidle) (by simp)
          refine ⟨by simpa [setStat] using hlen, hring, hclosed,
            Or.inr ⟨t0, ht0n, hpend, hnri, ?_, ?_, ?_⟩⟩
          · rw [List.filterMap_append]
            exact head?_append_some hhead _
          · have hsame : getStat (setStat c1 t (TStat.waiting 0)) t0 = getStat c1 t0 := by
              show (c1.threads.set t (TStat.waiting 0)).getD t0 .idle = _
              rw [getStat_set_ne _ _ _ _ hnt]
              rfl
            rcases howner with ⟨ho, hf⟩ | ⟨ho, hf⟩
            · exact Or.inl ⟨hsame.trans ho, hf⟩
            · exact Or.inr ⟨hsame.trans ho, hf⟩
          · intro t2 ht2
            by_cases ht2t : t2 = t
            · subst ht2t
              right
              show (c1.threads.set t2 (TStat.waiting 0)).getD t2 .idle = TStat.waiting 0
              rw [getStat_set_self _ _ _ htlen]
            · have hsame : getStat (setStat c1 t (TStat.waiting 0)) t2 = getStat c1 t2 := by
                show (c1.threads.set t (TStat.waiting 0)).getD t2 .idle = _
                rw [getStat_set_ne _ _ _ _ (fun hc => ht2t hc.symm)]
                rfl
              rcases hothers t2 ht2 with ho | ho
              · exact Or.inl (hsame.trans ho)
              · exact Or.inr (hsame.trans ho)
    | fetch t =>
      simp only [rexec] at hrun
      have hany : (xs ++ [RAct.fetch t]).any isCompletionAct = xs.any isCompletionAct := by
        simp [List.any_append, isCompletionAct]
      have hent : (xs ++ [RAct.fetch t]).filterMap enterThread = xs.filterMap enterThread := by
        simp [enterThread]
      cases hst : getStat c1 t with
      | ownerFetching rid =>
        rw [hst] at hrun
        obtain rfl := Option.some.inj hrun
        rw [resolverInv, hany]
        rw [resolverInv] at hinv
        by_cases hcany : xs.any isCompletionAct = true
        · rw [if_pos hcany] at hinv
          obtain ⟨hlen, t0, ht0n, hnri, hfc, hhead, howner, hothers⟩ := hinv
          by_cases hteq : t = t0
          · subst hteq
            rcases howner with ⟨ho, _, _⟩ | ⟨ho, _, _⟩ | ⟨ho, _, _⟩ <;>
              exact absurd (ho.symm.trans hst) (by simp)
          · rcases hothers t hteq with ho | ho | ho <;>
              exact absurd (ho.symm.trans hst) (by simp)
        · rw [if_neg hcany] at hinv
          rw [if_neg hcany]
          obtain ⟨hlen, hring, hclosed, hdisj⟩ := hinv
          rcases hdisj with ⟨_, _, _, hall, _⟩ |
              ⟨t0, ht0n, hpend, hnri, hhead, howner, hothers⟩
          · exact absurd ((hall t).symm.trans hst) (by simp)
          · by_cases hteq : t = t0
            · subst hteq
              rcases howner with ⟨ho, hf0⟩ | ⟨ho, _⟩
              · have hrid : rid = 0 := TStat.ownerFetching.inj (hst.symm.trans ho)
                subst hrid
                have htlen : t < c1.threads.length := by rw [hlen]; exact ht0n
                refine ⟨by simpa [setStat] using hlen, hring, hclosed,
                  Or.inr ⟨t, ht0n, hpend, hnri, ?_, ?_, ?_⟩⟩
                · rw [hent]
                  exact hhead
                · right
                  constructor
                  · show (c1.threads.set t (TStat.ownerFetched 0)).getD t .idle =
                      TStat.ownerFetched 0
                    rw [getStat_set_self _ _ _ htlen]
                  · show c1.fetchCount + 1 = 1
                    rw [hf0]
                · intro t2 ht2
                  have hsame : getStat
                      { setStat c1 t (TStat.ownerFetched 0) with
                        fetchCount := c1.fetchCount + 1 } t2 = getStat c1 t2 := by
                    show (c1.threads.set t (TStat.ownerFetched 0)).getD t2 .idle = _
                    rw [getStat_set_ne _ _ _ _ (fun hc => ht2 hc.symm)]
                    rfl
                  rcases hothers t2 ht2 with ho2 | ho2
                  · exact Or.inl (hsame.trans ho2)
                  · exact Or.inr (hsame.trans ho2)
              · exact absurd (ho.symm.trans hst) (by simp)
            · rcases hothers t hteq with ho | ho <;>
                exact absurd (ho.symm.trans hst) (by simp)
      | idle =>
        rw [hst] at hrun
        exact absurd hrun (by simp)
      | ownerFetched rid =>
        rw [hst] at hrun
        exact absurd hrun (by simp)
      | ownerAdded rid =>
        rw [hst] at hrun
        exact absurd hrun (by simp)
      | ownerDone rid =>
        rw [hst] at hrun
        exact absurd hrun (by simp)
      | waiting rid =>
        rw [hst] at hrun
        exact absurd hrun (by simp)
      | waiterDone rid =>
        rw [hst] at hrun
        exact absurd hrun (by simp)
      | cacheHit =>
        rw [hst] at hrun
        exact absurd hrun (by simp)
    | addRing t =>
      simp only [rexec] at hrun
      have hany : (xs ++ [RAct.addRing t]).any isCompletionAct = true := by
        simp [List.any_append, isCompletionAct]
      have hent : (xs ++ [RAct.addRing t]).filterMap enterThread =
          xs.filterMap enterThread := by
        simp [enterThread]
      cases hst : getStat c1 t with
      | ownerFetched rid =>
        rw [hst] at hrun
        obtain rfl := Option.some.inj hrun
        rw [resolverInv, if_pos hany]
        rw [resolverInv] at hinv
        by_cases hcany : xs.any isCompletionAct = true
        · rw [if_pos hcany] at hinv
          obtain ⟨hlen, t0, ht0n, hnri, hfc, hhead, howner, hothers⟩ := hinv
          by_cases hteq : t = t0
          · subst hteq
            rcases howner with ⟨ho, hp, hcl⟩ | ⟨ho, _, _⟩ | ⟨ho, _, _⟩
            · have hrid : rid = 0 := TStat.ownerFetched.inj (hst.symm.trans ho)
              subst hrid
              have htlen : t < c1.threads.length := by rw [hlen]; exact ht0n
              refine ⟨by simpa [setStat] using hlen, t, ht0n, hnri, hfc, ?_, ?_, ?_⟩
              · rw [hent]
                exact hhead
              · right
                left
                refine ⟨?_, hp, hcl⟩
                show (c1.threads.set t (TStat.ownerAdded 0)).getD t .idle =
                  TStat.ownerAdded 0
                rw [getStat_set_self _ _ _ htlen]
              · intro t2 ht2
                have hsame : getStat
                    { setStat c1 t (TStat.ownerAdded 0) with ringHasKey := true } t2 =
                    getStat c1 t2 := by
                  show (c1.threads.set t (TStat.ownerAdded 0)).getD t2 .idle = _
                  rw [getStat_set_ne _ _ _ _ (fun hc => ht2 hc.symm)]
                  rfl
                rcases hothers t2 ht2 with ho2 | ho2 | ho2
                · exact Or.inl (hsame.trans ho2)
                · exact Or.inr (Or.inl (hsame.trans ho2))
                · exact Or.inr (Or.inr (hsame.trans ho2))
            · exact absurd (ho.symm.trans hst) (by simp)
            · exact absurd (ho.symm.trans hst) (by simp)
          · rcases hothers t hteq with ho | ho | ho <;>
              exact absurd (ho.symm.trans hst) (by simp)
        · rw [if_neg hcany] at hinv
          obtain ⟨hlen, hring, hclosed, hdisj⟩ := hinv
          rcases hdisj with ⟨_, _, _, hall, _⟩ |
              ⟨t0, ht0n, hpend, hnri, hhead, howner, hothers⟩
          · exact absurd ((hall t).symm.trans hst) (by simp)
          · by_cases hteq : t = t0
            · subst hteq
              rcases howner with ⟨ho, _⟩ | ⟨ho, hf1⟩
              · exact absurd (ho.symm.trans hst) (by simp)
              · have hrid : rid = 0 := TStat.ownerFetched.inj (hst.symm.trans ho)
                subst hrid
                have htlen : t < c1.threads.length := by rw [hlen]; exact ht0n
                refine ⟨by simpa [setStat] using hlen, t, ht0n, hnri, hf1, ?_, ?_, ?_⟩
                · rw [hent]
                  exact hhead
                · right
                  left
                  refine ⟨?_, hpend, hclosed⟩
                  show (c1.threads.set t (TStat.ownerAdded 0)).getD t .idle =
                    TStat.ownerAdded 0
                  rw [getStat_set_self _ _ _ htlen]
                · intro t2 ht2
                  have hsame : getStat
                      { setStat c1 t (TStat.ownerAdded 0) with ringHasKey := true } t2 =
                      getStat c1 t2 := by
                    show (c1.threads.set t (TStat.ownerAdded 0)).getD t2 .idle = _
                    rw [getStat_set_ne _ _ _ _ (fun hc => ht2 hc.symm)]
                    rfl
                  rcases hothers t2 ht2 with ho2 | ho2
                  · exact Or.inl (hsame.trans ho2)
                  · exact Or.inr (Or.inl (hsame.trans ho2))
            · rcases hothers t hteq with ho | ho <;>
                exact absurd (ho.symm.trans hst) (by simp)
      | idle =>
        rw [hst] at hrun
        exact absurd hrun (by simp)
      | ownerFetching rid =>
        rw [hst] at hrun
        exact absurd hrun (by simp)
      | ownerAdded rid =>
        rw [hst] at hrun
        exact absurd hrun (by simp)
      | ownerDone rid =>
        rw [hst] at hrun
        exact absurd hrun (by simp)
      | waiting rid =>
        rw [hst] at hrun
        exact absurd hrun (by simp)
      | waiterDone rid =>
        rw [hst] at hrun
        exact absurd hrun (by simp)
      | cacheHit =>
        rw [hst] at hrun
        exact absurd hrun (by simp)
    | cleanup t =>
      simp only [rexec] at hrun
      have hany : (xs ++ [RAct.cleanup t]).any isCompletionAct = true := by
        simp [List.any_append, isCompletionAct]
      have hent : (xs ++ [RAct.cleanup t]).filterMap enterThread =
          xs.filterMap enterThread := by
        simp [enterThread]
      cases hst : getStat c1 t with
      | ownerFetched rid =>
        rw [hst] at hrun
        obtain rfl := Option.some.inj hrun
        rw [resolverInv, if_pos hany]
        rw [resolverInv] at hinv
        by_cases hcany : xs.any isCompletionAct = true
        · rw [if_pos hcany] at hinv
          obtain ⟨hlen, t0, ht0n, hnri, hfc, hhead, howner, hothers⟩ := hinv
          by_cases hteq : t = t0
          · subst hteq
            rcases howner with ⟨ho, hp, hcl⟩ | ⟨ho, _, _⟩ | ⟨ho, _, _⟩
            · have hrid : rid = 0 := TStat.ownerFetched.inj (hst.symm.trans ho)
              subst hrid
              have htlen : t < c1.threads.length := by rw [hlen]; exact ht0n
              refine ⟨by simpa [setStat] using hlen, t, ht0n, hnri, hfc, ?_, ?_, ?_⟩
              · rw [hent]
                exact hhead
              · right
                right
                refine ⟨?_, rfl, ?_⟩
                · show (c1.threads.set t (TStat.ownerDone 0)).getD t .idle =
                    TStat.ownerDone 0
                  rw [getStat_set_self _ _ _ htlen]
                · show 0 :: c1.closed = [0]
                  rw [hcl]
              · intro t2 ht2
                have hsame : getStat
                    { setStat c1 t (TStat.ownerDone 0) with
                      pending := none, closed := 0 :: c1.closed } t2 =
                    getStat c1 t2 := by
                  show (c1.threads.set t (TStat.ownerDone 0)).getD t2 .idle = _
                  rw [getStat_set_ne _ _ _ _ (fun hc => ht2 hc.symm)]
                  rfl
                rcases hothers t2 ht2 with ho2 | ho2 | ho2
                · exact Or.inl (hsame.trans ho2)
                · exact Or.inr (Or.inl (hsame.trans ho2))
                · exact Or.inr (Or.inr (hsame.trans ho2))
            · exact absurd (ho.symm.trans hst) (by simp)
            · exact absurd (ho.symm.trans hst) (by simp)
          · rcases hothers t hteq with ho | ho | ho <;>
              exact absurd (ho.symm.trans hst) (by simp)
        · rw [if_neg hcany] at hinv
          obtain ⟨hlen, hring, hclosed, hdisj⟩ := hinv
          rcases hdisj with ⟨_, _, _, hall, _⟩ |
              ⟨t0, ht0n, hpend, hnri, hhead, howner, hothers⟩
          · exact absurd ((hall t).symm.trans hst) (by simp)
          · by_cases hteq : t = t0
            · subst hteq
              rcases howner with ⟨ho, _⟩ | ⟨ho, hf1⟩
              · exact absurd (ho.symm.trans hst) (by simp)
              · have hrid : rid = 0 := TStat.ownerFetched.inj (hst.symm.trans ho)
                subst hrid
                have htlen : t < c1.threads.length := by rw [hlen]; exact ht0n
                refine ⟨by simpa [setStat] using hlen, t, ht0n, hnri, hf1, ?_, ?_, ?_⟩
                · rw [hent]
                  exact hhead
                · right
                  right
                  refine ⟨?_, rfl, ?_⟩
                  · show (c1.threads.set t (TStat.ownerDone 0)).getD t .idle =
                      TStat.ownerDone 0
                    rw [getStat_set_self _ _ _ htlen]
                  · show 0 :: c1.closed = [0]
                    rw [hclosed]
                · intro t2 ht2
                  have hsame : getStat
                      { setStat c1 t (TStat.ownerDone 0) with
                        pending := none, closed := 0 :: c1.closed } t2 =
                      getStat c1 t2 := by
                    show (c1.threads.set t (TStat.ownerDone 0)).getD t2 .idle = _
                    rw [getStat_set_ne _ _ _ _ (fun hc => ht2 hc.symm)]
                    rfl
                  rcases hothers t2 ht2 with ho2 | ho2
                  · exact Or.inl (hsame.trans ho2)
                  · exact Or.inr (Or.inl (hsame.trans ho2))
            · rcases hothers t hteq with ho | ho <;>
                exact absurd (ho.symm.trans hst) (by simp)
      | ownerAdded rid =>
        rw [hst] at hrun
        obtain rfl := Option.some.inj hrun
        rw [resolverInv, if_pos hany]
        rw [resolverInv] at hinv
        by_cases hcany : xs.any isCompletionAct = true
        · rw [if_pos hcany] at hinv
          obtain ⟨hlen, t0, ht0n, hnri, hfc, hhead, howner, hothers⟩ := hinv
          by_cases hteq : t = t0
          · subst hteq
            rcases howner with ⟨ho, _, _⟩ | ⟨ho, hp, hcl⟩ | ⟨ho, _, _⟩
            · exact absurd (ho.symm.trans hst) (by simp)
            · have hrid : rid = 0 := TStat.ownerAdded.inj (hst.symm.trans ho)
              subst hrid
              have htlen : t < c1.threads.length := by rw [hlen]; exact ht0n
              refine ⟨by simpa [setStat] using hlen, t, ht0n, hnri, hfc, ?_, ?_, ?_⟩
              · rw [hent]
                exact hhead
              · right
                right
                refine ⟨?_, rfl, ?_⟩
                · show (c1.threads.set t (TStat.ownerDone 0)).getD t .idle =
                    TStat.ownerDone 0
                  rw [getStat_set_self _ _ _ htlen]
                · show 0 :: c1.closed = [0]
                  rw [hcl]
              · intro t2 ht2
                have hsame : getStat
                    { setStat c1 t (TStat.ownerDone 0) with
                      pending := none, closed := 0 :: c1.closed } t2 =
                    getStat c1 t2 := by
                  show (c1.threads.set t (TStat.ownerDone 0)).getD t2 .idle = _
                  rw [getStat_set_ne _ _ _ _ (fun hc => ht2 hc.symm)]
                  rfl
                rcases hothers t2 ht2 with ho2 | ho2 | ho2
                · exact Or.inl (hsame.trans ho2)
                · exact Or.inr (Or.inl (hsame.trans ho2))
                · exact Or.inr (Or.inr (hsame.trans ho2))
            · exact absurd (ho.symm.trans hst) (by simp)
          · rcases hothers t hteq with ho | ho | ho <;>
              exact absurd (ho.symm.trans hst) (by simp)
        · rw [if_neg hcany] at hinv
          obtain ⟨hlen, hring, hclosed, hdisj⟩ := hinv
          rcases hdisj with ⟨_, _, _, hall, _⟩ |
              ⟨t0, ht0n, hpend, hnri, hhead, howner, hothers⟩
          · exact absurd ((hall t).symm.trans hst) (by simp)
          · by_cases hteq : t = t0
            · subst hteq
              rcases howner with ⟨ho, _⟩ | ⟨ho, _⟩ <;>
                exact absurd (ho.symm.trans hst) (by simp)
            · rcases hothers t hteq with ho | ho <;>
                exact absurd (ho.symm.trans hst) (by simp)
      | idle =>
        rw [hst] at hrun
        exact absurd hrun (by simp)
      | ownerFetching rid =>
        rw [hst] at hrun
        exact absurd hrun (by simp)
      | ownerDone rid =>
        rw [hst] at hrun
        exact absurd hrun (by simp)
      | waiting rid =>
        rw [hst] at hrun
        exact absurd hrun (by simp)
      | waiterDone rid =>
        rw [hst] at hrun
        exact absurd hrun (by simp)
      | cacheHit =>
        rw [hst] at hrun
        exact absurd hrun (by simp)
    | observe t =>
      simp only [rexec] at hrun
      have hany : (xs ++ [RAct.observe t]).any isCompletionAct =
          xs.any isCompletionAct := by
        simp [List.any_append, isCompletionAct]
      have hent : (xs ++ [RAct.observe t]).filterMap enterThread =
          xs.filterMap enterThread := by
        simp [enterThread]
      cases hst : getStat c1 t with
      | waiting rid =>
        rw [hst] at hrun
        dsimp only at hrun
        split at hrun
        case isFalse => exact absurd hrun (by simp)
        case isTrue hmem =>
          obtain rfl := Option.some.inj hrun
          have htlen : t < c1.threads.length := by
            by_contra hge
            rw [show getStat c1 t = TStat.idle from by
              simp only [getStat]
              exact List.getD_eq_default _ _ (le_of_not_lt hge)] at hst
            exact absurd hst (by simp)
          rw [resolverInv, hany]
          rw [resolverInv] at hinv
          by_cases hcany : xs.any isCompletionAct = true
          · rw [if_pos hcany] at hinv
            rw [if_pos hcany]
            obtain ⟨hlen, t0, ht0n, hnri, hfc, hhead, howner, hothers⟩ := hinv
            have hnt : t ≠ t0 := by
              intro heq
              rw [heq] at hst
              rcases howner with ⟨ho, _, _⟩ | ⟨ho, _, _⟩ | ⟨ho, _, _⟩ <;>
                exact absurd (ho.symm.trans hst) (by simp)
            have hrid : rid = 0 := by
              rcases hothers t hnt with ho | ho | ho
              · exact absurd (ho.symm.trans hst) (by simp)
              · exact (TStat.waiting.inj (hst.symm.trans ho))
              · exact absurd (ho.symm.trans hst) (by simp)
            subst hrid
            refine ⟨by simpa [setStat] using hlen, t0, ht0n, hnri, hfc, ?_, ?_, ?_⟩
            · rw [hent]
              exact hhead
            · have hsame : getStat (setStat c1 t (TStat.waiterDone 0)) t0 =
                  getStat c1 t0 := by
                show (c1.threads.set t (TStat.waiterDone 0)).getD t0 .idle = _
                rw [getStat_set_ne _ _ _ _ hnt]
                rfl
              rcases howner with ⟨ho, hp, hcl⟩ | ⟨ho, hp, hcl⟩ | ⟨ho, hp, hcl⟩
              · exact Or.inl ⟨hsame.trans ho, hp, hcl⟩
              · exact Or.inr (Or.inl ⟨hsame.trans ho, hp, hcl⟩)
              · exact Or.inr (Or.inr ⟨hsame.trans ho, hp, hcl⟩)
            · intro t2 ht2
              by_cases ht2t : t2 = t
              · subst ht2t
                right
                right
                show (c1.threads.set t2 (TStat.waiterDone 0)).getD t2 .idle =
                  TStat.waiterDone 0
                rw [getStat_set_self _ _ _ htlen]
              · have hsame : getStat (setStat c1 t (TStat.waiterDone 0)) t2 =
                    getStat c1 t2 := by
                  show (c1.threads.set t (TStat.waiterDone 0)).getD t2 .idle = _
                  rw [getStat_set_ne _ _ _ _ (fun hc => ht2t hc.symm)]
                  rfl
                rcases hothers t2 ht2 with ho2 | ho2 | ho2
                · exact Or.inl (hsame.trans ho2)
                · exact Or.inr (Or.inl (hsame.trans ho2))
                · exact Or.inr (Or.inr (hsame.trans ho2))
          · rw [if_neg hcany] at hinv
            obtain ⟨_, _, hclosed, _⟩ := hinv
            rw [hclosed] at hmem
            exact absurd hmem (List.not_mem_nil rid)
      | idle =>
        rw [hst] at hrun
        exact absurd hrun (by simp)
      | ownerFetching rid =>
        rw [hst] at hrun
        exact absurd hrun (by simp)
      | ownerFetched rid =>
        rw [hst] at hrun
        exact absurd hrun (by simp)
      | ownerAdded rid =>
        rw [hst] at hrun
        exact absurd hrun (by simp)
      | ownerDone rid =>
        rw [hst] at hrun
        exact absurd hrun (by simp)
      | waiterDone rid =>
        rw [hst] at hrun
        exact absurd hrun (by simp)
      | cacheHit =>
        rw [hst] at hrun
        exact absurd hrun (by simp)


/-- **C1.** In every interleaved execution of any number of concurrent
`Resolve` calls for the same keyID against a resolver whose `KeyRing` does
not contain it — a trace from the cold initial configuration in which every
caller enters (runs its locked double-check plus `requestFor`) before any
caller completes (publishes to the ring or cleans the pending entry) — the
underlying `Fetcher.Fetch` runs at most once, and exactly once whenever some
caller has finished as owner; the caller holding a pending request (the
owner) is unique and is the first caller to have entered, it owns request
id 0, every waiting caller waits on that same request id 0, and no caller
found the key already cached in the ring. -/
theorem resolver_coalescing (n : Nat) (tr : List RAct) (c : RConfig)
    (hrun : runTrace (initConfig n) tr = some c)
    (hres : entersBeforeCompletions tr = true) :
    countFetches tr ≤ 1
    ∧ (∀ t rid, getStat c t = TStat.ownerDone rid → countFetches tr = 1)
    ∧ (∀ t1 t2, (ownerRid (getStat c t1)).isSome = true →
        (ownerRid (getStat c t2)).isSome = true → t1 = t2)
    ∧ (∀ t, (ownerRid (getStat c t)).isSome = true →
        (tr.filterMap enterThread).head? = some t ∧ ownerRid (getStat c t) = some 0)
    ∧ (∀ t rid, getStat c t = TStat.waiting rid → rid = 0)
    ∧ (∀ t, getStat c t ≠ TStat.cacheHit) := by
  have hinv := resolverInv_holds n tr c hrun hres
  have hcf : c.fetchCount = countFetches tr := by
    have h := runTrace_fetchCount tr (initConfig n) c hrun
    simpa [initConfig] using h
  rw [resolverInv] at hinv
  by_cases hcany : tr.any isCompletionAct = true
  · rw [if_pos hcany] at hinv
    obtain ⟨hlen, t0, ht0n, hnri, hfc, hhead, howner, hothers⟩ := hinv
    have hfc1 : countFetches tr = 1 := by rw [← hcf, hfc]
    have hown_t0 : ∀ t, (ownerRid (getStat c t)).isSome = true → t = t0 := by
      intro t ht
      by_contra hne
      rcases hothers t hne with h | h | h <;> rw [h] at ht <;>
        simp [ownerRid] at ht
    refine ⟨by omega, fun _ _ _ => hfc1, ?_, ?_, ?_, ?_⟩
    · intro t1 t2 h1 h2
      rw [hown_t0 t1 h1, hown_t0 t2 h2]
    · intro t ht
      obtain rfl := hown_t0 t ht
      refine ⟨hhead, ?_⟩
      rcases howner with ⟨ho, _, _⟩ | ⟨ho, _, _⟩ | ⟨ho, _, _⟩ <;> rw [ho] <;> rfl
    · intro t rid hw
      by_cases hne : t = t0
      · subst hne
        rcases howner with ⟨ho, _, _⟩ | ⟨ho, _, _⟩ | ⟨ho, _, _⟩ <;>
          exact absurd (ho.symm.trans hw) (by simp)
      · rcases hothers t hne with h | h | h
        · exact absurd (h.symm.trans hw) (by simp)
        · exact (TStat.waiting.inj (hw.symm.trans h))
        · exact absurd (h.symm.trans hw) (by simp)
    · intro t hch
      by_cases hne : t = t0
      · subst hne
        rcases howner with ⟨ho, _, _⟩ | ⟨ho, _, _⟩ | ⟨ho, _, _⟩ <;>
          exact absurd (ho.symm.trans hch) (by simp)
      · rcases hothers t hne with h | h | h <;>
          exact absurd (h.symm.trans hch) (by simp)
  · rw [if_neg hcany] at hinv
    obtain ⟨hlen, hring, hclosed, hcase⟩ := hinv
    rcases hcase with ⟨hp, hnr, hfc, hall, hent⟩ |
        ⟨t0, ht0n, hp, hnr, hhead, howner, hothers⟩
    · have hfc0 : countFetches tr = 0 := by rw [← hcf, hfc]
      refine ⟨by omega, ?_, ?_, ?_, ?_, ?_⟩
      · intro t rid hd
        rw [hall t] at hd
        exact absurd hd (by simp)
      · intro t1 t2 h1 _
        rw [hall t1] at h1
        simp [ownerRid] at h1
      · intro t ht
        rw [hall t] at ht
        simp [ownerRid] at ht
      · intro t rid hw
        rw [hall t] at hw
        exact absurd hw (by simp)
      · intro t hch
        rw [hall t] at hch
        exact absurd hch (by simp)
    · have hown_t0 : ∀ t, (ownerRid (getStat c t)).isSome = true → t = t0 := by
        intro t ht
        by_contra hne
        rcases hothers t hne with h | h <;> rw [h] at ht <;>
          simp [ownerRid] at ht
      have hfcle : countFetches tr ≤ 1 := by
        rcases howner with ⟨_, hf⟩ | ⟨_, hf⟩ <;> rw [← hcf, hf]
        omega
      refine ⟨hfcle, ?_, ?_, ?_, ?_, ?_⟩
      · intro t rid hd
        by_cases hne : t = t0
        · subst hne
          rcases howner with ⟨ho, _⟩ | ⟨ho, _⟩ <;>
            exact absurd (ho.symm.trans hd) (by simp)
        · rcases hothers t hne with h | h <;>
            exact absurd (h.symm.trans hd) (by simp)
      · intro t1 t2 h1 h2
        rw [hown_t0 t1 h1, hown_t0 t2 h2]
      · intro t ht
        obtain rfl := hown_t0 t ht
        refine ⟨hhead, ?_⟩
        rcases howner with ⟨ho, _⟩ | ⟨ho, _⟩ <;> rw [ho] <;> rfl
      · intro t rid hw
        by_cases hne : t = t0
        · subst hne
          rcases howner with ⟨ho, _⟩ | ⟨ho, _⟩ <;>
            exact absurd (ho.symm.trans hw) (by simp)
        · rcases hothers t hne with h | h
          · exact absurd (h.symm.trans hw) (by simp)
          · exact (TStat.waiting.inj (hw.symm.trans h))
      · intro t hch
        by_cases hne : t = t0
        · subst hne
          rcases howner with ⟨ho, _⟩ | ⟨ho, _⟩ <;>
            exact absurd (ho.symm.trans hch) (by simp)
        · rcases hothers t hne with h | h <;>
            exact absurd (h.symm.trans hch) (by simp)

/-- Concrete run of `resolver_coalescing`: three concurrent callers, thread 0
enters first and becomes the owner, threads 1 and 2 wait on its request and
are released after the cleanup; the Fetcher runs exactly once. -/
theorem resolver_coalescing_witness :
    countFetches [RAct.enter 0, RAct.enter 1, RAct.enter 2, RAct.fetch 0,
        RAct.addRing 0, RAct.cleanup 0, RAct.observe 1, RAct.observe 2] ≤ 1
    ∧ (∀ t rid,
        getStat ⟨[TStat.ownerDone 0, TStat.waiterDone 0, TStat.waiterDone 0],
            none, 1, [0], true, 1⟩ t = TStat.ownerDone rid →
        countFetches [RAct.enter 0, RAct.enter 1, RAct.enter 2, RAct.fetch 0,
            RAct.addRing 0, RAct.cleanup 0, RAct.observe 1, RAct.observe 2] = 1)
    ∧ (∀ t1 t2,
        (ownerRid (getStat ⟨[TStat.ownerDone 0, TStat.waiterDone 0,
            TStat.waiterDone 0], none, 1, [0], true, 1⟩ t1)).isSome = true →
        (ownerRid (getStat ⟨[TStat.ownerDone 0, TStat.waiterDone 0,
            TStat.waiterDone 0], none, 1, [0], true, 1⟩ t2)).isSome = true →
        t1 = t2)
    ∧ (∀ t,
        (ownerRid (getStat ⟨[TStat.ownerDone 0, TStat.waiterDone 0,
            TStat.waiterDone 0], none, 1, [0], true, 1⟩ t)).isSome = true →
        ([RAct.enter 0, RAct.enter 1, RAct.enter 2, RAct.fetch 0,
            RAct.addRing 0, RAct.cleanup 0, RAct.observe 1,
            RAct.observe 2].filterMap enterThread).head? = some t
          ∧ ownerRid (getStat ⟨[TStat.ownerDone 0, TStat.waiterDone 0,
              TStat.waiterDone 0], none, 1, [0], true, 1⟩ t) = some 0)
    ∧ (∀ t rid,
        getStat ⟨[TStat.ownerDone 0, TStat.waiterDone 0, TStat.waiterDone 0],
            none, 1, [0], true, 1⟩ t = TStat.waiting rid → rid = 0)
    ∧ (∀ t,
        getStat ⟨[TStat.ownerDone 0, TStat.waiterDone 0, TStat.waiterDone 0],
            none, 1, [0], true, 1⟩ t ≠ TStat.cacheHit) :=
  resolver_coalescing 3
    [RAct.enter 0, RAct.enter 1, RAct.enter 2, RAct.fetch 0,
      RAct.addRing 0, RAct.cleanup 0, RAct.observe 1, RAct.observe 2]
    ⟨[TStat.ownerDone 0, TStat.waiterDone 0, TStat.waiterDone 0],
      none, 1, [0], true, 1⟩
    (by decide) (by decide)

end Clortho
